import Mathlib

/-!
# SysMonitor++ : metric derivation, process-record parsing and ranking

A shallow embedding of the core of `src/sysmonitor.c`:

* `getCPUUsage`      (lines 163-177): utilisation from two `/proc/stat` snapshots;
* `getMemoryUsage`   (lines 218-230): used memory from `MemTotal` / `MemAvailable`;
* `compare_processes` (lines 233-240) and the display loop of `listTopProcesses`
  (lines 316-322);
* the per-entry body of the enumeration loop of `listTopProcesses` (lines 254-313).

Conventions.  `unsigned long long` values are natural numbers below `2 ^ 64`, and every
unsigned operation of the source is written with its explicit reduction modulo `2 ^ 64`.
The `double` value of `getCPUUsage` is read as an exact rational (`ℚ`).  For
`getMemoryUsage` both readings are given: the exact value of the expression of line 220,
and the `double` the code computes, with every conversion and operation rounded to the
nearest binary64 value (`toDouble`).
-/

namespace SysMonitor

/-! ## Machine integers -/

/-- Number of values of an `unsigned long long` / `size_t` (64 bits). -/
def U64 : Nat := 2 ^ 64

/-- Unsigned 64-bit addition. -/
def add64 (a b : Nat) : Nat := (a + b) % U64

/-- Unsigned 64-bit subtraction `a - b` (wraps around when `b > a`). -/
def sub64 (a b : Nat) : Nat := (a + U64 - b % U64) % U64

/-! ## CPU utilisation -/

/-- The `CPUStats` structure (lines 27-36): eight tick counters. -/
structure CPUStats where
  user : Nat
  nice : Nat
  system : Nat
  idle : Nat
  iowait : Nat
  irq : Nat
  softirq : Nat
  steal : Nat
  deriving DecidableEq, Repr

/-- The mathematical (unbounded) sum of the eight counters. -/
def CPUStats.sum (s : CPUStats) : Nat :=
  s.user + s.nice + s.system + s.idle + s.iowait + s.irq + s.softirq + s.steal

/-- Lines 163-166: `total = user + nice + system + idle + iowait + irq + softirq + steal`,
evaluated left to right in `unsigned long long`. -/
def cpuTotal (s : CPUStats) : Nat :=
  add64 (add64 (add64 (add64 (add64 (add64 (add64 s.user s.nice) s.system) s.idle)
    s.iowait) s.irq) s.softirq) s.steal

/-- Lines 168-169: `idle = idle + iowait` in `unsigned long long`. -/
def cpuIdle (s : CPUStats) : Nat := add64 s.idle s.iowait

/-- Lines 163-177 of `getCPUUsage`: the value of `cpu_usage` computed from the two
snapshots `stat1` (earlier) and `stat2` (later). -/
def getCPUUsage (stat1 stat2 : CPUStats) : ℚ :=
  let total1 := cpuTotal stat1
  let total2 := cpuTotal stat2
  let idle1 := cpuIdle stat1
  let idle2 := cpuIdle stat2
  let total_delta := sub64 total2 total1
  let idle_delta := sub64 idle2 idle1
  if total_delta > 0 then
    ((sub64 total_delta idle_delta : Nat) : ℚ) / (total_delta : ℚ) * 100
  else
    0

/-! ## Binary64 arithmetic -/

/-- Rounding of a rational to the nearest integer, a tie going to the even one. -/
def roundEven (q : ℚ) : ℤ :=
  if q - (⌊q⌋ : ℚ) < 1 / 2 then ⌊q⌋
  else if 1 / 2 < q - (⌊q⌋ : ℚ) then ⌊q⌋ + 1
  else if ⌊q⌋ % 2 = 0 then ⌊q⌋ else ⌊q⌋ + 1

/-- The spacing of the binary64 values in the binade of `x > 0`: `2 ^ (e - 52)` where
`2 ^ e ≤ x < 2 ^ (e + 1)` (53 significant bits). -/
def ulp (x : ℚ) : ℚ := (2 : ℚ) ^ (Int.log 2 x - 52)

/-- The `double` nearest to the non-negative real `x` (IEEE 754 binary64, round to nearest,
ties to even), as a rational.  Overflow and subnormal values are not modelled: every value
that `getMemoryUsage` rounds lies between `2 ^ (-64)` and `2 ^ 71`. -/
def toDouble (x : ℚ) : ℚ :=
  if x ≤ 0 then 0 else (roundEven (x / ulp x) : ℚ) * ulp x

/-- Division of two `double` values. -/
def fdiv (a b : ℚ) : ℚ := toDouble (a / b)

/-- Multiplication of two `double` values. -/
def fmul (a b : ℚ) : ℚ := toDouble (a * b)

/-! ## Memory usage -/

/-- What `getMemoryUsage` prints in its `total_mem > 0` branch (lines 219-223). -/
structure MemReport where
  /-- The variable `used_mem`, in kilobytes -/
  used_mem : Nat
  /-- The exact value of the expression `used_mem / total_mem * 100` of line 220 -/
  used_percent : ℚ
  /-- The `double` stored in `used_percent` by line 220:
  `(double)used_mem / total_mem * 100.0`, both operands converted to `double`, the
  quotient and the product rounded -/
  used_percent_double : ℚ
  /-- The printed `total_mem / 1024` -/
  total_mb : Nat
  /-- The printed `used_mem / 1024` -/
  used_mb : Nat
  /-- The printed `available_mem / 1024` -/
  free_mb : Nat
  deriving DecidableEq, Repr

/-- Lines 218-230 of `getMemoryUsage`, from the parsed `total_mem` and `available_mem`:
`none` is the branch that prints "Could not read memory info.". -/
def getMemoryUsage (total_mem available_mem : Nat) : Option MemReport :=
  if total_mem > 0 then
    let used_mem := sub64 total_mem available_mem
    let used_percent : ℚ := (used_mem : ℚ) / (total_mem : ℚ) * 100
    some { used_mem := used_mem, used_percent := used_percent,
           used_percent_double :=
             fmul (fdiv (toDouble (used_mem : ℚ)) (toDouble (total_mem : ℚ))) 100,
           total_mb := total_mem / 1024, used_mb := used_mem / 1024,
           free_mb := available_mem / 1024 }
  else
    none

/-! ## Process records -/

/-- The `ProcessInfo` structure (lines 38-42).  `name` is the C string held in the
`char name[256]` member. -/
structure ProcessInfo where
  pid : Int
  name : List Char
  cpu_time : Nat
  deriving DecidableEq, Repr

/-- Lines 233-240: the comparison callback handed to `qsort`. -/
def compare_processes (pa pb : ProcessInfo) : Int :=
  if pb.cpu_time > pa.cpu_time then 1
  else if pb.cpu_time < pa.cpu_time then -1
  else 0

/-- Insertion of one element in front of the first element it does not compare
greater than. -/
def orderedInsert {α : Type} (cmp : α → α → Int) (x : α) : List α → List α
  | [] => [x]
  | y :: ys => if cmp x y ≤ 0 then x :: y :: ys else y :: orderedInsert cmp x ys

/-- The C library `qsort` (line 316).  Its code is not part of the repository; ISO C only
fixes its contract (`QsortContract` below).  This insertion sort driven by the callback is
one implementation of that contract. -/
def qsort {α : Type} (cmp : α → α → Int) : List α → List α
  | [] => []
  | x :: xs => orderedInsert cmp x (qsort cmp xs)

/-- The contract of `qsort`: the array afterwards is a rearrangement of the array before,
in ascending order according to the callback (`cmp a b ≤ 0` whenever `a` is placed before
`b`).  The relative order of elements that compare equal is unspecified. -/
def QsortContract {α : Type} (cmp : α → α → Int) (before after : List α) : Prop :=
  after.Perm before ∧ after.Pairwise (fun a b => cmp a b ≤ 0)

/-- Lines 320-322: `for (int i = 0; i < 5 && i < count; i++)` printing `processes[i]`;
the result is the list of records printed, in order, from index `i` on. -/
def displayLoop (processes : List ProcessInfo) (count : Nat) (i : Nat) : List ProcessInfo :=
  if i < 5 ∧ i < count then
    match processes.get? i with
    | some p => p :: displayLoop processes count (i + 1)
    | none => []
  else
    []
termination_by 5 - i
decreasing_by omega

/-- The records displayed by `listTopProcesses` for the (sorted) array `processes`, whose
length is `count`. -/
def displayed (processes : List ProcessInfo) : List ProcessInfo :=
  displayLoop processes processes.length 0

/-! ## C strings and the character classes -/

/-- The terminating byte of a C string. -/
def NUL : Char := Char.ofNat 0

/-- The function `isdigit` of `<ctype.h>`. -/
def isdigit (c : Char) : Bool := decide ('0' ≤ c) && decide (c ≤ '9')

/-- The function `isspace` of `<ctype.h>` in the C locale: space, `\t`, `\n`, `\v`, `\f`,
`\r`. -/
def isspace (c : Char) : Bool :=
  c == ' ' || c == '\t' || c == '\n' || c == '\x0b' || c == '\x0c' || c == '\r'

/-- The C string that starts at offset `off` of the memory `buf`: the bytes up to, and
without, the first `NUL`. -/
def cstrAt (buf : List Char) (off : Nat) : List Char :=
  (buf.drop off).takeWhile (fun c => c != NUL)

/-- The call `strchr(buf, c)` for `c ≠ NUL`: the offset of the first `c` in the C string
at `buf`, `none` for a null pointer. -/
def strchr (buf : List Char) (c : Char) : Option Nat :=
  let s := cstrAt buf 0
  if s.indexOf c < s.length then some (s.indexOf c) else none

/-- The call `strrchr(buf, c)` for `c ≠ NUL`: the offset of the last `c` in the C string
at `buf`, `none` for a null pointer. -/
def strrchr (buf : List Char) (c : Char) : Option Nat :=
  let s := cstrAt buf 0
  if s.reverse.indexOf c < s.length then some (s.length - 1 - s.reverse.indexOf c) else none

/-! ## `sscanf` -/

/-- The directives that occur in the format of line 300. -/
inductive Directive
  /-- White space in the format -/
  | space
  /-- The conversion `%c` -/
  | c
  /-- The conversion `%d` -/
  | d
  /-- The conversion `%u` -/
  | u
  /-- The conversion `%lu` -/
  | lu
  /-- The conversion `%llu` -/
  | llu
  deriving DecidableEq, Repr

/-- The format of line 300: `"%c %d %d %d %d %d %u %lu %lu %lu %lu %llu %llu"`. -/
def statFormat : List Directive :=
  [.c, .space, .d, .space, .d, .space, .d, .space, .d, .space, .d, .space, .u,
   .space, .lu, .space, .lu, .space, .lu, .space, .lu, .space, .llu, .space, .llu]

/-- Value of a run of decimal digits. -/
def digitsValue (ds : List Char) : Nat :=
  ds.foldl (fun acc ch => acc * 10 + (ch.toNat - 48)) 0

/-- One decimal integer conversion (`%d`, `%u`, `%lu`, `%llu`): skip white space, accept
an optional sign, then the longest non-empty run of digits.  Returns the mathematical
value read and the unread input; `none` is an input or matching failure. -/
def scanNumber (s : List Char) : Option (Int × List Char) :=
  match s.dropWhile isspace with
  | [] => none
  | ch :: r =>
    let body := if ch = '-' ∨ ch = '+' then r else ch :: r
    let ds := body.takeWhile isdigit
    if ds = [] then none
    else some (if ch = '-' then - (digitsValue ds : Int) else (digitsValue ds : Int),
               body.dropWhile isdigit)

/-- The call `sscanf(s, fmt, ...)`: the values assigned to the successive arguments, in
order.  Scanning stops at the first directive that fails; the arguments of the conversions
not reached are not written. -/
def sscanf : List Directive → List Char → List Int
  | [], _ => []
  | dir :: fmt, s =>
    match dir with
    | .space => sscanf fmt (s.dropWhile isspace)
    | .c =>
      match s with
      | [] => []
      | ch :: r => (ch.toNat : Int) :: sscanf fmt r
    | _ =>
      match scanNumber s with
      | none => []
      | some (v, r) => v :: sscanf fmt r

/-- The `unsigned long long` stored by `%llu` for the mathematical value read (the
`strtoull` rule: a magnitude that does not fit gives `ULLONG_MAX`, otherwise a negative
value is negated modulo `2^64`). -/
def toULL (v : Int) : Nat :=
  if v.natAbs ≥ U64 then U64 - 1 else (v % (U64 : Int)).toNat

/-- The function `atoi`: `(int) strtol(s, NULL, 10)`; no digits give 0, a value outside
`long` is clamped and the result is truncated to 32 bits. -/
def atoi (s : List Char) : Int :=
  match scanNumber s with
  | none => 0
  | some (v, _) =>
    let l : Int := max (-(2 ^ 63)) (min v (2 ^ 63 - 1))
    (l + 2 ^ 31) % 2 ^ 32 - 2 ^ 31

/-! ## The enumeration loop of `listTopProcesses` -/

/-- Lines 255-257: the test on a directory entry name and the identifier derived from it.
`none`: the entry is skipped by `continue`; `some pid`: `/proc/<pid>/stat` is opened. -/
def candidate (d_name : List Char) : Option Int :=
  if !isdigit (d_name.headD NUL) then none else some (atoi d_name)

/-- Lines 263-268: `read(fd, buffer, sizeof(buffer) - 1)` of a status record followed by
`buffer[bytes] = '\0'`.  `mem` is the content of `buffer` (and of the memory behind it)
before the call: `read` overwrites its first `bytes` bytes only. -/
def readInto (mem : List Char) (record : List Char) : List Char :=
  let data := record.take 511
  data ++ NUL :: mem.drop (data.length + 1)

/-- Lines 274-307: the record built from the terminated `buffer`; `none` when no `)` or no
`(` is found (no record is stored). -/
def parseBuffer (pid : Int) (buffer : List Char) : Option ProcessInfo :=
  match strrchr buffer ')' with
  | none => none
  | some close_paren =>
    match strchr buffer '(' with
    | none => none
    | some name_start =>
      -- size_t name_len = close_paren - name_start - 1;
      let name_len0 : Nat := (((close_paren : Int) - (name_start : Int) - 1) % (U64 : Int)).toNat
      let name_len : Nat := if name_len0 ≥ 256 then 255 else name_len0
      -- strncpy(name, name_start + 1, name_len); name[name_len] = '\0';
      let name := (cstrAt buffer (name_start + 1)).take name_len
      -- unsigned long long utime = 0, stime = 0; sscanf(close_paren + 2, ...)
      let vals := sscanf statFormat (cstrAt buffer (close_paren + 2))
      let utime : Nat := match vals.get? 11 with
        | some v => toULL v
        | none => 0
      let stime : Nat := match vals.get? 12 with
        | some v => toULL v
        | none => 0
      some { pid := pid, name := name, cpu_time := add64 utime stime }

/-- Lines 261-312 for one candidate: `stat` is what `open` / `read` deliver (`none`: the
file could not be opened; an empty record: `read` returned 0).  Returns the buffer
afterwards and the record stored, if any. -/
def processEntry (pid : Int) (stat : Option (List Char)) (mem : List Char) :
    List Char × Option ProcessInfo :=
  match stat with
  | none => (mem, none)
  | some record =>
    if record.length > 0 then
      (readInto mem record, parseBuffer pid (readInto mem record))
    else
      (mem, none)

/-- Lines 254-313: the `readdir` loop over the entries of `/proc`, with the array
`processes` filled so far; it stops when 1024 records are stored.  `readStat pid` is the
content of `/proc/<pid>/stat` (`none` when `open` fails).  The local `buffer` is taken to
keep its bytes from one iteration to the next (`mem`); every statement proved about one
entry holds for an arbitrary `mem`. -/
def enumerate (readStat : Int → Option (List Char)) :
    List (List Char) → List Char → List ProcessInfo → List ProcessInfo
  | [], _, processes => processes
  | d_name :: rest, mem, processes =>
    match candidate d_name with
    | none => enumerate readStat rest mem processes
    | some pid =>
      match processEntry pid (readStat pid) mem with
      | (mem1, none) => enumerate readStat rest mem1 processes
      | (mem1, some p) =>
        if (processes ++ [p]).length ≥ 1024 then processes ++ [p]
        else enumerate readStat rest mem1 (processes ++ [p])

/-! ## Vocabulary of the specification -/

/-- The white-space separated fields of a text, in order. -/
def fields : List Char → List (List Char)
  | [] => []
  | ch :: cs =>
    if isspace ch then fields cs
    else
      match cs with
      | [] => [[ch]]
      | next :: _ =>
        if isspace next then [ch] :: fields cs
        else
          match fields cs with
          | tok :: toks => (ch :: tok) :: toks
          | [] => [[ch]]

/-- The `k`-th field (the first field is number 1); empty when there is none. -/
def nthField (fs : List (List Char)) (k : Nat) : List Char := (fs.get? (k - 1)).getD []

/-- A field that is an unsigned decimal number: a non-empty run of digits. -/
def isUnsignedField (tok : List Char) : Bool := tok != [] && tok.all isdigit

/-- A field that is a decimal number: an optional sign and a non-empty run of digits. -/
def isNumericField (tok : List Char) : Bool :=
  match tok with
  | [] => false
  | ch :: r => if ch = '-' ∨ ch = '+' then isUnsignedField r else isUnsignedField (ch :: r)

/-- No sign character after the first character of the field. -/
def noInnerSign (tok : List Char) : Bool := tok.tail.all (fun ch => ch != '-' && ch != '+')

/-- The name consists entirely of decimal digits. -/
def allDigits (name : List Char) : Bool := name != [] && name.all isdigit

/-! ## Auxiliary notions for the proofs -/

/-- The text is empty or starts with a character on which `p` fails. -/
def StopsAt (p : Char → Bool) (b : List Char) : Prop := ∀ ch r, b = ch :: r → p ch = false

/-- The mathematical value of a numeric field. -/
def fieldValue (tok : List Char) : Int :=
  match tok with
  | [] => 0
  | ch :: r =>
    if ch = '-' then - (digitsValue r : Int)
    else if ch = '+' then (digitsValue r : Int)
    else (digitsValue (ch :: r) : Int)

/-- The text starts with a character that is neither white space, nor a digit, nor a
sign: no numeric conversion can read it. -/
def Stuck (s : List Char) : Prop :=
  ∃ ch r, s = ch :: r ∧ isspace ch = false ∧ isdigit ch = false ∧ ¬ (ch = '-' ∨ ch = '+')

/-- The format has no `%c`: white space and numeric conversions only. -/
def NumFmt (fmt : List Directive) : Prop := ∀ dir ∈ fmt, dir ≠ Directive.c

/-- Number of conversions of a format. -/
def numCount (fmt : List Directive) : Nat := (fmt.filter (fun dir => dir != Directive.space)).length

/-- The ticks stored for the values assigned by `sscanf` (lines 285, 300-306): `utime` and
`stime` keep their initial value 0 unless the 12th and 13th conversions are reached. -/
def ticksOf (vals : List Int) : Nat :=
  add64
    (match vals.get? 11 with
      | some v => toULL v
      | none => 0)
    (match vals.get? 12 with
      | some v => toULL v
      | none => 0)

/-- The format of line 300 behind its leading `%c`. -/
def statTail : List Directive :=
  [.space, .d, .space, .d, .space, .d, .space, .d, .space, .d, .space, .u,
   .space, .lu, .space, .lu, .space, .lu, .space, .lu, .space, .llu, .space, .llu]

/-! ## Concrete inputs used in the scenarios -/

/-- Scenario snapshot `prev = {100,0,50,800,10,0,0,0}`. -/
def scenarioPrev : CPUStats := ⟨100, 0, 50, 800, 10, 0, 0, 0⟩

/-- Scenario snapshot `curr = {120,0,60,810,10,0,0,0}`. -/
def scenarioCurr : CPUStats := ⟨120, 0, 60, 810, 10, 0, 0, 0⟩

/-- A snapshot taken after the counters restarted from zero. -/
def afterReset : CPUStats := ⟨5, 0, 2, 40, 1, 0, 0, 0⟩

/-- Field-wise order on snapshots: no counter decreased. -/
def CPUStats.le (p c : CPUStats) : Prop :=
  p.user ≤ c.user ∧ p.nice ≤ c.nice ∧ p.system ≤ c.system ∧ p.idle ≤ c.idle ∧
  p.iowait ≤ c.iowait ∧ p.irq ≤ c.irq ∧ p.softirq ≤ c.softirq ∧ p.steal ≤ c.steal

instance (p c : CPUStats) : Decidable (CPUStats.le p c) := by
  unfold CPUStats.le; infer_instance

/-! ## Arithmetic lemmas -/

theorem sub64_of_le {a b : Nat} (hab : b ≤ a) (ha : a < U64) : sub64 a b = a - b := by
  unfold sub64 U64 at *
  omega

theorem sub64_self (a : Nat) : sub64 a a = 0 := by
  unfold sub64 U64 at *
  omega

theorem cpuTotal_eq_sum {s : CPUStats} (h : s.sum < U64) : cpuTotal s = s.sum := by
  unfold cpuTotal add64 CPUStats.sum U64 at *
  omega

theorem cpuIdle_eq {s : CPUStats} (h : s.sum < U64) : cpuIdle s = s.idle + s.iowait := by
  unfold cpuIdle add64 CPUStats.sum U64 at *
  omega

theorem sum_le_of_le {p c : CPUStats} (h : p.le c) : p.sum ≤ c.sum := by
  unfold CPUStats.le at h
  unfold CPUStats.sum
  omega

/-- Under monotone counters without overflow the code computes the unwrapped deltas. -/
theorem getCPUUsage_of_mono {prev curr : CPUStats} (hle : prev.le curr)
    (hsum : curr.sum < U64) (hpos : prev.sum < curr.sum) :
    getCPUUsage prev curr =
      (((curr.sum - prev.sum) - ((curr.idle + curr.iowait) - (prev.idle + prev.iowait)) : Nat) : ℚ)
        / ((curr.sum - prev.sum : Nat) : ℚ) * 100 := by
  have hps : prev.sum < U64 := lt_of_le_of_lt (sum_le_of_le hle) hsum
  have hidle : (curr.idle + curr.iowait) - (prev.idle + prev.iowait) ≤ curr.sum - prev.sum := by
    unfold CPUStats.le at hle
    unfold CPUStats.sum
    omega
  have hidle1 : prev.idle + prev.iowait ≤ curr.idle + curr.iowait := by
    unfold CPUStats.le at hle
    omega
  have hidle2 : curr.idle + curr.iowait < U64 := by
    unfold CPUStats.sum at hsum
    omega
  have htd : sub64 (cpuTotal curr) (cpuTotal prev) = curr.sum - prev.sum := by
    rw [cpuTotal_eq_sum hsum, cpuTotal_eq_sum hps]
    exact sub64_of_le (le_of_lt hpos) hsum
  have hid : sub64 (cpuIdle curr) (cpuIdle prev)
      = (curr.idle + curr.iowait) - (prev.idle + prev.iowait) := by
    rw [cpuIdle_eq hsum, cpuIdle_eq hps]
    exact sub64_of_le hidle1 hidle2
  have hlt : curr.sum - prev.sum < U64 := by omega
  unfold getCPUUsage
  simp only [htd, hid]
  rw [if_pos (by omega), sub64_of_le hidle hlt]

theorem getCPUUsage_of_total_eq {prev curr : CPUStats}
    (h : cpuTotal curr = cpuTotal prev) : getCPUUsage prev curr = 0 := by
  unfold getCPUUsage
  simp only [h, sub64_self]
  simp

theorem cpuTotal_eq_mod (s : CPUStats) : cpuTotal s = s.sum % U64 := by
  unfold cpuTotal add64 CPUStats.sum U64
  omega

/-! ## Claims on `getCPUUsage` and `getMemoryUsage` -/

/-- C1: for snapshots with no counter decreasing, no 64-bit overflow in the sums and a
positive total delta, `getCPUUsage` equals `(total_delta - idle_delta) / total_delta * 100`
in exact rational arithmetic; it is 0 when the snapshots are equal; and it is 75 on the
scenario snapshots. -/
theorem C1_cpu_usage_formula (prev curr : CPUStats) (hle : prev.le curr)
    (hsum : curr.sum < U64) :
    (prev.sum < curr.sum →
      getCPUUsage prev curr =
        (((curr.sum : ℚ) - (prev.sum : ℚ))
            - (((curr.idle : ℚ) + (curr.iowait : ℚ)) - ((prev.idle : ℚ) + (prev.iowait : ℚ))))
          / ((curr.sum : ℚ) - (prev.sum : ℚ)) * 100) ∧
    (prev = curr → getCPUUsage prev curr = 0) ∧
    getCPUUsage scenarioPrev scenarioCurr = 75 := by
  refine ⟨fun hpos => ?_, fun heq => ?_, ?_⟩
  · rw [getCPUUsage_of_mono hle hsum hpos]
    have h1 : prev.sum ≤ curr.sum := le_of_lt hpos
    have h2 : prev.idle + prev.iowait ≤ curr.idle + curr.iowait := by
      unfold CPUStats.le at hle
      omega
    have h3 : (curr.idle + curr.iowait) - (prev.idle + prev.iowait) ≤ curr.sum - prev.sum := by
      unfold CPUStats.le at hle
      unfold CPUStats.sum
      omega
    rw [Nat.cast_sub h3, Nat.cast_sub h1, Nat.cast_sub h2]
    push_cast
    ring
  · subst heq
    exact getCPUUsage_of_total_eq rfl
  · rw [getCPUUsage_of_mono (by decide) (by decide) (by decide)]
    norm_num [scenarioPrev, scenarioCurr, CPUStats.sum]

/-- Witness of C1 at the scenario snapshots. -/
theorem C1_cpu_usage_formula_witness :
    scenarioPrev.le scenarioCurr ∧ scenarioCurr.sum < U64 ∧
      getCPUUsage scenarioPrev scenarioCurr = 75 :=
  ⟨by decide, by decide,
    (C1_cpu_usage_formula scenarioPrev scenarioCurr (by decide) (by decide)).2.2⟩

/-- C9: for snapshots with no counter decreasing and no 64-bit overflow in the sums, the
idle delta computed by the code is at most the total delta, the unsigned subtraction
`total_delta - idle_delta` does not wrap, and the utilisation lies in `[0, 100]`. -/
theorem C9_cpu_usage_in_range (prev curr : CPUStats) (hle : prev.le curr)
    (hsum : curr.sum < U64) :
    sub64 (cpuIdle curr) (cpuIdle prev) ≤ sub64 (cpuTotal curr) (cpuTotal prev) ∧
    sub64 (sub64 (cpuTotal curr) (cpuTotal prev)) (sub64 (cpuIdle curr) (cpuIdle prev))
      = sub64 (cpuTotal curr) (cpuTotal prev) - sub64 (cpuIdle curr) (cpuIdle prev) ∧
    0 ≤ getCPUUsage prev curr ∧ getCPUUsage prev curr ≤ 100 := by
  have hps : prev.sum < U64 := lt_of_le_of_lt (sum_le_of_le hle) hsum
  have hs : prev.sum ≤ curr.sum := sum_le_of_le hle
  have hidle : (curr.idle + curr.iowait) - (prev.idle + prev.iowait) ≤ curr.sum - prev.sum := by
    unfold CPUStats.le at hle
    unfold CPUStats.sum
    omega
  have hidle1 : prev.idle + prev.iowait ≤ curr.idle + curr.iowait := by
    unfold CPUStats.le at hle
    omega
  have hidle2 : curr.idle + curr.iowait < U64 := by
    unfold CPUStats.sum at hsum
    omega
  have htd : sub64 (cpuTotal curr) (cpuTotal prev) = curr.sum - prev.sum := by
    rw [cpuTotal_eq_sum hsum, cpuTotal_eq_sum hps]
    exact sub64_of_le hs hsum
  have hid : sub64 (cpuIdle curr) (cpuIdle prev)
      = (curr.idle + curr.iowait) - (prev.idle + prev.iowait) := by
    rw [cpuIdle_eq hsum, cpuIdle_eq hps]
    exact sub64_of_le hidle1 hidle2
  have hlt : curr.sum - prev.sum < U64 := by omega
  have hwrap := sub64_of_le hidle hlt
  refine ⟨by rw [htd, hid]; exact hidle, by rw [htd, hid]; exact hwrap, ?_, ?_⟩
  · unfold getCPUUsage
    simp only
    split
    · positivity
    · exact le_refl 0
  · unfold getCPUUsage
    simp only [htd, hid, hwrap]
    split
    · next hpos =>
      have hq : (0 : ℚ) < ((curr.sum - prev.sum : Nat) : ℚ) := by exact_mod_cast hpos
      have hnum : (((curr.sum - prev.sum)
          - ((curr.idle + curr.iowait) - (prev.idle + prev.iowait)) : Nat) : ℚ)
          ≤ ((curr.sum - prev.sum : Nat) : ℚ) := by
        exact_mod_cast Nat.sub_le _ _
      have h1 : (((curr.sum - prev.sum)
          - ((curr.idle + curr.iowait) - (prev.idle + prev.iowait)) : Nat) : ℚ)
          / ((curr.sum - prev.sum : Nat) : ℚ) ≤ 1 := (div_le_one hq).mpr hnum
      linarith
    · norm_num

/-- Witness of C9 at the scenario snapshots. -/
theorem C9_cpu_usage_in_range_witness :
    scenarioPrev.le scenarioCurr ∧ scenarioCurr.sum < U64 ∧
      0 ≤ getCPUUsage scenarioPrev scenarioCurr ∧
      getCPUUsage scenarioPrev scenarioCurr ≤ 100 :=
  ⟨by decide, by decide,
    (C9_cpu_usage_in_range scenarioPrev scenarioCurr (by decide) (by decide)).2.2⟩

/-- C5 as stated fails: after a counter reset the mathematical total delta is negative,
yet the unsigned delta of the code wraps to a positive value and the utilisation computed
is not 0. -/
theorem C5_counterexample :
    ((afterReset.sum : ℤ) - (scenarioPrev.sum : ℤ) ≤ 0) ∧
      sub64 (cpuTotal afterReset) (cpuTotal scenarioPrev) = 2 ^ 64 - 912 ∧
      getCPUUsage scenarioPrev afterReset = (2 ^ 64 - 143 : ℚ) / (2 ^ 64 - 912 : ℚ) * 100 ∧
      getCPUUsage scenarioPrev afterReset ≠ 0 := by
  have h1 : cpuTotal afterReset = 48 := by decide
  have h2 : cpuTotal scenarioPrev = 960 := by decide
  have h3 : cpuIdle afterReset = 41 := by decide
  have h4 : cpuIdle scenarioPrev = 810 := by decide
  have h5 : sub64 48 960 = 2 ^ 64 - 912 := by decide
  have h6 : sub64 41 810 = 2 ^ 64 - 769 := by decide
  have h7 : sub64 (2 ^ 64 - 912) (2 ^ 64 - 769) = 2 ^ 64 - 143 := by decide
  have hval : getCPUUsage scenarioPrev afterReset
      = (2 ^ 64 - 143 : ℚ) / (2 ^ 64 - 912 : ℚ) * 100 := by
    unfold getCPUUsage
    simp only [h1, h2, h3, h4, h5, h6, h7]
    norm_num
  refine ⟨by decide, by rw [h1, h2, h5], hval, ?_⟩
  rw [hval]
  norm_num

/-- C5 (amended): whenever the total delta computed by the code in unsigned 64-bit
arithmetic is 0, in particular whenever the two sums of counters are equal, the
utilisation is exactly 0. -/
theorem C5_zero_delta_gives_zero (prev curr : CPUStats) :
    (sub64 (cpuTotal curr) (cpuTotal prev) = 0 → getCPUUsage prev curr = 0) ∧
    (curr.sum = prev.sum → getCPUUsage prev curr = 0) := by
  constructor
  · intro h
    unfold getCPUUsage
    simp only [h]
    simp
  · intro h
    apply getCPUUsage_of_total_eq
    rw [cpuTotal_eq_mod, cpuTotal_eq_mod, h]

/-- Witness of the amended C5: two different snapshots with equal sums. -/
theorem C5_zero_delta_gives_zero_witness :
    (⟨1, 2, 3, 4, 5, 6, 7, 8⟩ : CPUStats).sum = (⟨8, 7, 6, 5, 4, 3, 2, 1⟩ : CPUStats).sum ∧
      getCPUUsage ⟨8, 7, 6, 5, 4, 3, 2, 1⟩ ⟨1, 2, 3, 4, 5, 6, 7, 8⟩ = 0 :=
  ⟨by decide,
    (C5_zero_delta_gives_zero ⟨8, 7, 6, 5, 4, 3, 2, 1⟩ ⟨1, 2, 3, 4, 5, 6, 7, 8⟩).2 (by decide)⟩

/-- C2: `getMemoryUsage` reports "unavailable" exactly when `total = 0`; when `total > 0`
and `available ≤ total` it reports `usedKB = total - available` and
`usedPercent = usedKB / total * 100`; for 1000000 / 250000 this is 750000 and 75. -/
theorem C2_memory_usage (total available : Nat) :
    (getMemoryUsage total available = none ↔ total = 0) ∧
    (0 < total → available ≤ total → total < U64 →
      ∃ r, getMemoryUsage total available = some r ∧
        r.used_mem = total - available ∧
        r.used_percent = ((total : ℚ) - (available : ℚ)) / (total : ℚ) * 100 ∧
        r.used_percent = (r.used_mem : ℚ) / (total : ℚ) * 100) ∧
    (∃ r, getMemoryUsage 1000000 250000 = some r ∧ r.used_mem = 750000 ∧
        r.used_percent = 75) := by
  refine ⟨?_, ?_, ?_⟩
  · unfold getMemoryUsage
    constructor
    · intro h
      by_contra hne
      rw [if_pos (Nat.pos_of_ne_zero hne)] at h
      exact Option.noConfusion h
    · intro h
      subst h
      rfl
  · intro hpos hle hlt
    refine ⟨_, by unfold getMemoryUsage; rw [if_pos hpos], ?_, ?_, rfl⟩
    · exact sub64_of_le hle hlt
    · simp only [sub64_of_le hle hlt, Nat.cast_sub hle]
  · refine ⟨_, by unfold getMemoryUsage; rw [if_pos (by decide)], ?_, ?_⟩
    · decide
    · have h : sub64 1000000 250000 = 750000 := by decide
      simp only [h]
      norm_num

/-- Witness of C2 at `total = 1000000`, `available = 250000`. -/
theorem C2_memory_usage_witness :
    (0 < 1000000 ∧ 250000 ≤ 1000000 ∧ 1000000 < U64) ∧
      ∃ r, getMemoryUsage 1000000 250000 = some r ∧
        r.used_mem = 1000000 - 250000 ∧
        r.used_percent = ((1000000 : ℚ) - (250000 : ℚ)) / (1000000 : ℚ) * 100 ∧
        r.used_percent = (r.used_mem : ℚ) / (1000000 : ℚ) * 100 :=
  ⟨⟨by decide, by decide, by decide⟩, by
    simpa using (C2_memory_usage 1000000 250000).2.1 (by decide) (by decide) (by decide)⟩

/-! ## Rounding to binary64 -/

theorem compare_processes_le_iff (a b : ProcessInfo) :
    compare_processes a b ≤ 0 ↔ b.cpu_time ≤ a.cpu_time := by
  unfold compare_processes
  split
  · constructor
    · intro h; omega
    · intro h; omega
  · split
    · constructor
      · intro _; omega
      · intro _; decide
    · constructor
      · intro _; omega
      · intro _; decide

theorem orderedInsert_perm {α : Type} (cmp : α → α → Int) (x : α) (l : List α) :
    (orderedInsert cmp x l).Perm (x :: l) := by
  induction l with
  | nil => exact List.Perm.refl _
  | cons y ys ih =>
    unfold orderedInsert
    split
    · exact List.Perm.refl _
    · exact (List.Perm.cons y ih).trans (List.Perm.swap x y ys)

theorem qsort_perm {α : Type} (cmp : α → α → Int) (l : List α) : (qsort cmp l).Perm l := by
  induction l with
  | nil => exact List.Perm.refl _
  | cons x xs ih =>
    unfold qsort
    exact (orderedInsert_perm cmp x _).trans (List.Perm.cons x ih)

theorem orderedInsert_sorted (x : ProcessInfo) (l : List ProcessInfo)
    (h : l.Pairwise (fun a b => compare_processes a b ≤ 0)) :
    (orderedInsert compare_processes x l).Pairwise (fun a b => compare_processes a b ≤ 0) := by
  induction l with
  | nil => simp [orderedInsert]
  | cons y ys ih =>
    rw [List.pairwise_cons] at h
    unfold orderedInsert
    split
    · next hxy =>
      rw [List.pairwise_cons]
      refine ⟨?_, List.pairwise_cons.mpr h⟩
      intro b hb
      rcases List.mem_cons.mp hb with rfl | hb
      · exact hxy
      · have h1 := (compare_processes_le_iff _ _).mp (h.1 b hb)
        have h2 := (compare_processes_le_iff _ _).mp hxy
        exact (compare_processes_le_iff _ _).mpr (le_trans h1 h2)
    · next hxy =>
      rw [List.pairwise_cons]
      refine ⟨?_, ih h.2⟩
      intro b hb
      have hb2 : b ∈ x :: ys := (orderedInsert_perm compare_processes x ys).subset hb
      rcases List.mem_cons.mp hb2 with rfl | hb2
      · rw [compare_processes_le_iff] at hxy ⊢
        omega
      · exact h.1 b hb2

/-- The insertion sort `qsort` meets the contract of the C library function for the
callback `compare_processes`: the contract is satisfiable on every input. -/
theorem qsort_meets_contract (procs : List ProcessInfo) :
    QsortContract compare_processes procs (qsort compare_processes procs) := by
  refine ⟨qsort_perm _ _, ?_⟩
  induction procs with
  | nil => simp [qsort]
  | cons x xs ih =>
    unfold qsort
    exact orderedInsert_sorted x _ ih

theorem displayLoop_eq (ps : List ProcessInfo) :
    ∀ n i, 5 - i = n → displayLoop ps ps.length i = (ps.drop i).take (5 - i) := by
  intro n
  induction n with
  | zero =>
    intro i hi
    rw [displayLoop, if_neg (by omega), hi, List.take_zero]
  | succ n ih =>
    intro i hi
    rw [displayLoop]
    by_cases hlen : i < ps.length
    · rw [if_pos ⟨by omega, hlen⟩, List.get?_eq_get hlen]
      simp only
      rw [ih (i + 1) (by omega), List.drop_eq_getElem_cons hlen, hi, List.take_succ_cons]
      have h5 : 5 - (i + 1) = n := by omega
      rw [h5]
      rfl
    · rw [if_neg (by omega), List.drop_eq_nil_of_le (by omega), List.take_nil]

theorem displayed_eq_take (ps : List ProcessInfo) : displayed ps = ps.take 5 := by
  unfold displayed
  rw [displayLoop_eq ps 5 0 rfl]
  rfl

/-- The enumeration never stores more than 1024 records. -/
theorem enumerate_length_le (readStat : Int → Option (List Char)) :
    ∀ (entries : List (List Char)) (mem : List Char) (processes : List ProcessInfo),
      processes.length < 1024 →
      (enumerate readStat entries mem processes).length ≤ 1024 := by
  intro entries
  induction entries with
  | nil =>
    intro mem processes h
    rw [enumerate]
    omega
  | cons d_name rest ih =>
    intro mem processes h
    rw [enumerate]
    split
    · exact ih mem processes h
    · split
      · exact ih _ processes h
      · split
        · rw [List.length_append, List.length_singleton]
          omega
        · next hlt => exact ih _ _ (by omega)

/-- C3: whenever `sorted` is what `qsort` with `compare_processes` makes of the enumerated
array `procs`, the list displayed has `min 5 count` records, all of them enumerated
records, in non-increasing order of ticks, and every record not displayed has at most the
ticks of every displayed one; for `[(1,a,500),(2,b,500),(3,c,900)]` the first record
displayed is `(3,c,900)`. -/
theorem C3_top_five_ranked (procs sorted : List ProcessInfo)
    (hq : QsortContract compare_processes procs sorted) :
    (displayed sorted).length = min 5 procs.length ∧
    (∀ r ∈ displayed sorted, r ∈ procs) ∧
    (∀ i j a b, i < j → (displayed sorted).get? i = some a →
        (displayed sorted).get? j = some b → b.cpu_time ≤ a.cpu_time) ∧
    (displayed sorted ++ sorted.drop 5).Perm procs ∧
    (∀ r ∈ sorted.drop 5, ∀ d ∈ displayed sorted, r.cpu_time ≤ d.cpu_time) ∧
    (∀ r ∈ procs, r ∉ displayed sorted → ∀ d ∈ displayed sorted, r.cpu_time ≤ d.cpu_time) ∧
    (procs = [⟨1, ['a'], 500⟩, ⟨2, ['b'], 500⟩, ⟨3, ['c'], 900⟩] →
        (displayed sorted).head? = some ⟨3, ['c'], 900⟩) := by
  obtain ⟨hperm, hsorted⟩ := hq
  have hsplit : sorted.take 5 ++ sorted.drop 5 = sorted := List.take_append_drop 5 sorted
  have hpw : (sorted.take 5 ++ sorted.drop 5).Pairwise
      (fun a b => compare_processes a b ≤ 0) := by rw [hsplit]; exact hsorted
  have hrest : ∀ r ∈ sorted.drop 5, ∀ d ∈ sorted.take 5, r.cpu_time ≤ d.cpu_time := by
    intro r hr d hd
    exact (compare_processes_le_iff d r).mp ((List.pairwise_append.mp hpw).2.2 d hd r hr)
  rw [displayed_eq_take]
  refine ⟨?_, ?_, ?_, ?_, hrest, ?_, ?_⟩
  · rw [List.length_take, hperm.length_eq]
  · intro r hr
    exact hperm.subset (List.mem_of_mem_take hr)
  · intro i j a b hij ha hb
    have hpw5 : (sorted.take 5).Pairwise (fun a b => compare_processes a b ≤ 0) :=
      (List.pairwise_append.mp hpw).1
    obtain ⟨hi, hai⟩ := List.get?_eq_some.mp ha
    obtain ⟨hj, hbj⟩ := List.get?_eq_some.mp hb
    have := List.pairwise_iff_get.mp hpw5 ⟨i, hi⟩ ⟨j, hj⟩ hij
    rw [hai, hbj] at this
    exact (compare_processes_le_iff a b).mp this
  · rw [hsplit]; exact hperm
  · intro r hr hnot d hd
    have hrs : r ∈ sorted.take 5 ++ sorted.drop 5 := by rw [hsplit]; exact hperm.symm.subset hr
    rcases List.mem_append.mp hrs with h | h
    · exact absurd h hnot
    · exact hrest r h d hd
  · intro hex
    subst hex
    have hmem : (⟨3, ['c'], 900⟩ : ProcessInfo) ∈ sorted :=
      hperm.symm.subset (by simp)
    cases hs : sorted with
    | nil => rw [hs] at hmem; exact absurd hmem (List.not_mem_nil _)
    | cons x xs =>
      rw [hs] at hmem hsorted hperm
      simp only [List.take_succ_cons, List.head?_cons, Option.some.injEq]
      rcases List.mem_cons.mp hmem with h | h
      · exact h.symm
      · have hle := (compare_processes_le_iff _ _).mp ((List.pairwise_cons.mp hsorted).1 _ h)
        have hx : x ∈ ([⟨1, ['a'], 500⟩, ⟨2, ['b'], 500⟩, ⟨3, ['c'], 900⟩] : List ProcessInfo) :=
          hperm.subset (List.mem_cons_self _ _)
        simp only [List.mem_cons, List.mem_singleton, List.not_mem_nil, or_false] at hx
        rcases hx with rfl | rfl | rfl
        · simp at hle
        · simp at hle
        · rfl

/-- Witness of C3: the enumeration scenario, with the array as the insertion sort
leaves it. -/
theorem C3_top_five_ranked_witness :
    QsortContract compare_processes
        [⟨1, ['a'], 500⟩, ⟨2, ['b'], 500⟩, ⟨3, ['c'], 900⟩]
        (qsort compare_processes [⟨1, ['a'], 500⟩, ⟨2, ['b'], 500⟩, ⟨3, ['c'], 900⟩]) ∧
      (displayed (qsort compare_processes
        [⟨1, ['a'], 500⟩, ⟨2, ['b'], 500⟩, ⟨3, ['c'], 900⟩])).head?
        = some ⟨3, ['c'], 900⟩ :=
  ⟨qsort_meets_contract _,
    (C3_top_five_ranked _ _ (qsort_meets_contract
      [⟨1, ['a'], 500⟩, ⟨2, ['b'], 500⟩, ⟨3, ['c'], 900⟩])).2.2.2.2.2.2 rfl⟩

/-! ## Character classes -/

theorem isdigit_iff (ch : Char) : isdigit ch = true ↔ 48 ≤ ch.toNat ∧ ch.toNat ≤ 57 := by
  unfold isdigit
  rw [Bool.and_eq_true, decide_eq_true_eq, decide_eq_true_eq]
  exact Iff.rfl

theorem isspace_iff (ch : Char) : isspace ch = true ↔
    ch = ' ' ∨ ch = '\t' ∨ ch = '\n' ∨ ch = '\x0b' ∨ ch = '\x0c' ∨ ch = '\r' := by
  unfold isspace
  simp only [Bool.or_eq_true, beq_iff_eq, or_assoc]

theorem isspace_toNat {ch : Char} (h : isspace ch = true) : ch.toNat ≤ 32 := by
  rcases (isspace_iff ch).mp h with rfl | rfl | rfl | rfl | rfl | rfl <;> decide

theorem not_isspace_of_isdigit {ch : Char} (h : isdigit ch = true) : isspace ch = false := by
  cases hs : isspace ch
  · rfl
  · have h1 := isspace_toNat hs
    have h2 := (isdigit_iff ch).mp h
    omega

theorem not_isdigit_of_isspace {ch : Char} (h : isspace ch = true) : isdigit ch = false := by
  cases hd : isdigit ch
  · rfl
  · rw [not_isspace_of_isdigit hd] at h
    exact absurd h (by decide)

theorem isdigit_ne_sign {ch : Char} (h : isdigit ch = true) : ¬ (ch = '-' ∨ ch = '+') := by
  have h2 := (isdigit_iff ch).mp h
  rintro (rfl | rfl) <;> revert h2 <;> decide

/-! ## `takeWhile` / `dropWhile` in front of a stop -/

theorem stopsAt_nil (p : Char → Bool) : StopsAt p [] := by
  intro ch r h
  exact List.noConfusion h

theorem takeWhile_append_stop (p : Char → Bool) (a b : List Char) (hb : StopsAt p b) :
    (a ++ b).takeWhile p = a.takeWhile p := by
  induction a with
  | nil =>
    cases b with
    | nil => rfl
    | cons ch r => simp [List.takeWhile, hb ch r rfl]
  | cons x xs ih =>
    simp only [List.cons_append, List.takeWhile_cons]
    rw [ih]

theorem dropWhile_append_stop (p : Char → Bool) (a b : List Char) (hb : StopsAt p b) :
    (a ++ b).dropWhile p = a.dropWhile p ++ b := by
  induction a with
  | nil =>
    cases b with
    | nil => rfl
    | cons ch r => simp [List.dropWhile, hb ch r rfl]
  | cons x xs ih =>
    simp only [List.cons_append, List.dropWhile_cons]
    rw [ih]
    split <;> rfl

theorem dropWhile_all (p : Char → Bool) (ws s : List Char) (h : ∀ ch ∈ ws, p ch = true) :
    (ws ++ s).dropWhile p = s.dropWhile p := by
  induction ws with
  | nil => rfl
  | cons x xs ih =>
    have hx := h x (List.mem_cons_self _ _)
    simp only [List.cons_append, List.dropWhile_cons, hx, if_true]
    exact ih (fun ch hch => h ch (List.mem_cons_of_mem _ hch))

/-! ## The fields of a text -/

theorem fields_cons (ch : Char) (cs : List Char) :
    fields (ch :: cs) =
      if isspace ch then fields cs
      else
        match cs with
        | [] => [[ch]]
        | next :: _ =>
          if isspace next then [ch] :: fields cs
          else
            match fields cs with
            | tok :: toks => (ch :: tok) :: toks
            | [] => [[ch]] := by
  cases cs <;> rfl

theorem fields_cons_space {ch : Char} (cs : List Char) (h : isspace ch = true) :
    fields (ch :: cs) = fields cs := by
  rw [fields_cons, if_pos h]

theorem fields_cons_ne_nil {ch : Char} (cs : List Char) (h : isspace ch = false) :
    fields (ch :: cs) ≠ [] := by
  rw [fields_cons]
  simp only [h, Bool.false_eq_true, if_false]
  cases cs with
  | nil => simp
  | cons next r =>
    simp only
    split
    · simp
    · split <;> simp

theorem fields_dropWhile (s : List Char) : fields (s.dropWhile isspace) = fields s := by
  induction s with
  | nil => rfl
  | cons ch cs ih =>
    cases h : isspace ch
    · rw [List.dropWhile_cons_of_neg (by simp [h])]
    · rw [List.dropWhile_cons_of_pos h, ih, fields_cons_space cs h]

theorem fields_eq_nil_iff (s : List Char) : fields s = [] ↔ s.dropWhile isspace = [] := by
  induction s with
  | nil => simp [fields]
  | cons ch cs ih =>
    cases h : isspace ch
    · rw [List.dropWhile_cons_of_neg (by simp [h])]
      constructor
      · intro hf; exact absurd hf (fields_cons_ne_nil cs h)
      · intro hf; exact List.noConfusion hf
    · rw [List.dropWhile_cons_of_pos h, fields_cons_space cs h, ih]

/-- Shape of a text whose first field is `tok`: white space, the field, and a remainder
that is empty or starts with white space and holds the other fields. -/
theorem fields_cons_split : ∀ (s tok : List Char) (rest : List (List Char)),
    fields s = tok :: rest →
    ∃ ws s1, s = ws ++ tok ++ s1 ∧ (∀ ch ∈ ws, isspace ch = true) ∧ tok ≠ [] ∧
      (∀ ch ∈ tok, isspace ch = false) ∧ StopsAt (fun ch => !isspace ch) s1 ∧
      fields s1 = rest := by
  intro s
  induction s with
  | nil => intro tok rest h; exact List.noConfusion h
  | cons ch cs ih =>
    intro tok rest h
    cases hsp : isspace ch
    · rw [fields_cons] at h
      simp only [hsp, Bool.false_eq_true, if_false] at h
      cases cs with
      | nil =>
        simp only [List.cons.injEq] at h
        obtain ⟨rfl, rfl⟩ := h
        refine ⟨[], [], rfl, by simp, by simp, ?_, stopsAt_nil _, rfl⟩
        intro c hc
        rw [List.mem_singleton.mp hc]; exact hsp
      | cons next r =>
        simp only at h
        cases hn : isspace next
        · simp only [hn, Bool.false_eq_true, if_false] at h
          cases hf : fields (next :: r) with
          | nil => exact absurd hf (fields_cons_ne_nil r hn)
          | cons t ts =>
            rw [hf] at h
            simp only [List.cons.injEq] at h
            obtain ⟨rfl, rfl⟩ := h
            obtain ⟨ws, s1, hs, hws, hne, htok, hstop, hrest⟩ := ih t ts hf
            cases ws with
            | cons w ws1 =>
              have hw := hws w (List.mem_cons_self _ _)
              simp only [List.cons_append, List.cons.injEq] at hs
              rw [← hs.1, hn] at hw
              exact absurd hw (by decide)
            | nil =>
              simp only [List.nil_append] at hs
              refine ⟨[], s1, by simp [hs], by simp, by simp, ?_, hstop, hrest⟩
              intro c hc
              rcases List.mem_cons.mp hc with rfl | hc
              · exact hsp
              · exact htok c hc
        · simp only [hn, if_true, List.cons.injEq] at h
          obtain ⟨rfl, rfl⟩ := h
          refine ⟨[], next :: r, rfl, by simp, by simp, ?_, ?_, rfl⟩
          · intro c hc
            rw [List.mem_singleton.mp hc]; exact hsp
          · intro c r1 hc
            simp only [List.cons.injEq] at hc
            rw [← hc.1]
            simp [hn]
    · rw [fields_cons_space cs hsp] at h
      obtain ⟨ws, s1, hs, hws, hne, htok, hstop, hrest⟩ := ih tok rest h
      refine ⟨ch :: ws, s1, by simp [hs], ?_, hne, htok, hstop, hrest⟩
      intro c hc
      rcases List.mem_cons.mp hc with rfl | hc
      · exact hsp
      · exact hws c hc

/-! ## One numeric conversion on the first field -/

theorem scanNumber_stuck {s : List Char} (h : Stuck s) : scanNumber s = none := by
  obtain ⟨ch, r, rfl, hsp, hd, hsg⟩ := h
  unfold scanNumber
  rw [List.dropWhile_cons_of_neg (by simp [hsp])]
  simp only [if_neg hsg]
  rw [List.takeWhile_cons_of_neg (by simp [hd])]
  simp

theorem sscanf_space (fmt : List Directive) (s : List Char) :
    sscanf (Directive.space :: fmt) s = sscanf fmt (s.dropWhile isspace) := rfl

theorem sscanf_c_cons (fmt : List Directive) (ch : Char) (r : List Char) :
    sscanf (Directive.c :: fmt) (ch :: r) = (ch.toNat : Int) :: sscanf fmt r := rfl

theorem sscanf_c_nil (fmt : List Directive) : sscanf (Directive.c :: fmt) [] = [] := rfl

theorem sscanf_num (dir : Directive) (hs : dir ≠ Directive.space) (hc : dir ≠ Directive.c)
    (fmt : List Directive) (s : List Char) :
    sscanf (dir :: fmt) s =
      match scanNumber s with
      | none => []
      | some (v, r) => v :: sscanf fmt r := by
  cases dir
  · exact absurd rfl hs
  · exact absurd rfl hc
  all_goals rfl

theorem sscanf_stuck (fmt : List Directive) (hfmt : NumFmt fmt) (s : List Char)
    (h : Stuck s) : sscanf fmt s = [] := by
  induction fmt with
  | nil => rfl
  | cons dir fmt ih =>
    have hfmt1 : NumFmt fmt := fun x hx => hfmt x (List.mem_cons_of_mem _ hx)
    have hc : dir ≠ Directive.c := hfmt dir (List.mem_cons_self _ _)
    by_cases hs : dir = Directive.space
    · subst hs
      rw [sscanf_space]
      obtain ⟨ch, r, rfl, hsp, hd, hsg⟩ := h
      rw [List.dropWhile_cons_of_neg (by simp [hsp])]
      exact ih hfmt1
    · rw [sscanf_num dir hs hc, scanNumber_stuck h]

theorem isUnsignedField_iff (t : List Char) :
    isUnsignedField t = true ↔ t ≠ [] ∧ ∀ ch ∈ t, isdigit ch = true := by
  unfold isUnsignedField
  simp [List.all_eq_true]

theorem dropWhile_head_not (p : Char → Bool) (l : List Char) (ch : Char) (r : List Char)
    (h : l.dropWhile p = ch :: r) : p ch = false ∧ ch ∈ l := by
  induction l with
  | nil => exact List.noConfusion h
  | cons x xs ih =>
    cases hx : p x
    · rw [List.dropWhile_cons_of_neg (by simp [hx])] at h
      simp only [List.cons.injEq] at h
      rw [← h.1]
      exact ⟨hx, List.mem_cons_self _ _⟩
    · rw [List.dropWhile_cons_of_pos hx] at h
      exact ⟨(ih h).1, List.mem_cons_of_mem _ (ih h).2⟩

theorem takeWhile_eq_self_of_dropWhile_nil (p : Char → Bool) (l : List Char)
    (h : l.dropWhile p = []) : l.takeWhile p = l := by
  have := List.takeWhile_append_dropWhile p l
  rw [h, List.append_nil] at this
  exact this

/-- What one numeric conversion does on a text whose first field is `tok` (a field with
no inner sign): either `tok` is a number, which is read whole and the other fields remain;
or `tok` is not a number, and the conversion fails or leaves a text on which every later
conversion fails. -/
theorem scanNumber_field (s tok : List Char) (rest : List (List Char))
    (hf : fields s = tok :: rest) (hsign : noInnerSign tok = true) :
    (isNumericField tok = true ∧
      ∃ s1, scanNumber s = some (fieldValue tok, s1) ∧ fields s1 = rest) ∨
    (isNumericField tok = false ∧
      (scanNumber s = none ∨ ∃ v s1, scanNumber s = some (v, s1) ∧ Stuck s1)) := by
  obtain ⟨ws, s1, rfl, hws, hne, htok, hstop, hrest⟩ := fields_cons_split s tok rest hf
  have hstopd : StopsAt isdigit s1 := by
    intro ch r hs
    have := hstop ch r hs
    simp only [Bool.not_eq_false'] at this
    exact not_isdigit_of_isspace this
  cases tok with
  | nil => exact absurd rfl hne
  | cons ch r =>
    have hch : isspace ch = false := htok ch (List.mem_cons_self _ _)
    have hdrop : (ws ++ (ch :: r) ++ s1).dropWhile isspace = ch :: (r ++ s1) := by
      rw [List.append_assoc, dropWhile_all isspace ws _ hws]
      rw [List.cons_append, List.dropWhile_cons_of_neg (by simp [hch])]
    have hinner : ∀ c ∈ r, ¬ (c = '-' ∨ c = '+') := by
      intro c hc
      unfold noInnerSign at hsign
      simp only [List.tail_cons, List.all_eq_true, Bool.and_eq_true, bne_iff_ne, ne_eq] at hsign
      have := hsign c hc
      tauto
    -- the part of the field after its optional sign
    obtain ⟨body, hbody, hbsub, hnum, hval⟩ :
        ∃ body : List Char,
          (if ch = '-' ∨ ch = '+' then r ++ s1 else ch :: (r ++ s1)) = body ++ s1 ∧
          (∀ c ∈ body, c ∈ ch :: r) ∧
          isNumericField (ch :: r) = isUnsignedField body ∧
          (body.dropWhile isdigit = [] →
            (if ch = '-' then - (digitsValue body : Int) else (digitsValue body : Int))
              = fieldValue (ch :: r)) := by
      by_cases hsg : ch = '-' ∨ ch = '+'
      · refine ⟨r, by rw [if_pos hsg], fun c hc => List.mem_cons_of_mem _ hc, ?_, ?_⟩
        · unfold isNumericField
          simp only [if_pos hsg]
        · intro _
          unfold fieldValue
          rcases hsg with rfl | rfl
          · simp
          · simp
      · refine ⟨ch :: r, by rw [if_neg hsg]; rfl, fun c hc => hc, ?_, ?_⟩
        · unfold isNumericField
          simp only [if_neg hsg]
        · intro _
          have h1 : ¬ ch = '-' := fun h => hsg (Or.inl h)
          have h2 : ¬ ch = '+' := fun h => hsg (Or.inr h)
          unfold fieldValue
          simp only [if_neg h1, if_neg h2]
    have htw : (body ++ s1).takeWhile isdigit = body.takeWhile isdigit :=
      takeWhile_append_stop isdigit body s1 hstopd
    have hdw : (body ++ s1).dropWhile isdigit = body.dropWhile isdigit ++ s1 :=
      dropWhile_append_stop isdigit body s1 hstopd
    have hscan : scanNumber (ws ++ (ch :: r) ++ s1) =
        if body.takeWhile isdigit = [] then none
        else some (if ch = '-' then - (digitsValue (body.takeWhile isdigit) : Int)
                   else (digitsValue (body.takeWhile isdigit) : Int),
                   body.dropWhile isdigit ++ s1) := by
      unfold scanNumber
      rw [hdrop]
      simp only [hbody, htw, hdw]
    by_cases hds : body.takeWhile isdigit = []
    · right
      rw [hscan, if_pos hds]
      refine ⟨?_, Or.inl rfl⟩
      rw [hnum]
      cases hu : isUnsignedField body
      · rfl
      · obtain ⟨hb1, hb2⟩ := (isUnsignedField_iff body).mp hu
        rw [List.takeWhile_eq_self_iff.mpr hb2] at hds
        exact absurd hds hb1
    · rw [hscan, if_neg hds]
      cases hdr : body.dropWhile isdigit with
      | nil =>
        left
        have hall := takeWhile_eq_self_of_dropWhile_nil isdigit body hdr
        have hb2 : ∀ c ∈ body, isdigit c = true := List.takeWhile_eq_self_iff.mp hall
        have hb1 : body ≠ [] := by rw [hall] at hds; exact hds
        refine ⟨by rw [hnum]; exact (isUnsignedField_iff body).mpr ⟨hb1, hb2⟩, s1, ?_, hrest⟩
        rw [hall, hval hdr, List.nil_append]
      | cons c j =>
        right
        obtain ⟨hcd, hcmem⟩ := dropWhile_head_not isdigit body c j hdr
        refine ⟨?_, Or.inr ⟨_, _, rfl, ?_⟩⟩
        · rw [hnum]
          cases hu : isUnsignedField body
          · rfl
          · have hb2 := ((isUnsignedField_iff body).mp hu).2
            rw [hb2 c hcmem] at hcd
            exact absurd hcd (by decide)
        · refine ⟨c, j ++ s1, rfl, htok c (hbsub c hcmem), hcd, ?_⟩
          -- `c` lies after the first character of the field
          have hcr : c ∈ r := by
            rcases List.mem_cons.mp (hbsub c hcmem) with hc | hc
            · subst hc
              by_cases hsg : c = '-' ∨ c = '+'
              · -- then `body` is `r`
                rw [if_pos hsg] at hbody
                have : body = r := (List.append_cancel_right hbody).symm
                rw [this] at hcmem
                exact hcmem
              · rw [if_neg hsg] at hbody
                have hb : body = c :: r := by
                  have : c :: (r ++ s1) = (c :: r) ++ s1 := rfl
                  rw [this] at hbody
                  exact (List.append_cancel_right hbody).symm
                rw [hb, List.dropWhile_cons_of_neg (by simp [hcd])] at hdr
                rw [hb, List.takeWhile_cons_of_neg (by simp [hcd])] at hds
                exact absurd rfl hds
            · exact hc
          exact hinner c hcr

/-! ## A run of numeric conversions on the fields of a text -/

theorem noInnerSign_of_numeric {tok : List Char} (h : isNumericField tok = true) :
    noInnerSign tok = true := by
  cases tok with
  | nil => rfl
  | cons ch r =>
    unfold isNumericField at h
    simp only at h
    unfold noInnerSign
    simp only [List.tail_cons, List.all_eq_true, Bool.and_eq_true, bne_iff_ne, ne_eq]
    intro c hc
    have hd : isdigit c = true := by
      by_cases hsg : ch = '-' ∨ ch = '+'
      · rw [if_pos hsg] at h
        exact ((isUnsignedField_iff r).mp h).2 c hc
      · rw [if_neg hsg] at h
        exact ((isUnsignedField_iff (ch :: r)).mp h).2 c (List.mem_cons_of_mem _ hc)
    have := isdigit_ne_sign hd
    tauto

theorem numCount_space (fmt : List Directive) :
    numCount (Directive.space :: fmt) = numCount fmt := rfl

theorem numCount_num (dir : Directive) (hs : dir ≠ Directive.space) (fmt : List Directive) :
    numCount (dir :: fmt) = numCount fmt + 1 := by
  unfold numCount
  rw [List.filter_cons_of_pos (by simpa using hs)]
  rfl

/-- When the first fields of the text are numbers, one for each conversion of the format,
the conversions read exactly these fields, in order. -/
theorem sscanf_numeric_fields (fmt : List Directive) (hfmt : NumFmt fmt) :
    ∀ s : List Char,
      (∀ tok ∈ (fields s).take (numCount fmt), isNumericField tok = true) →
      numCount fmt ≤ (fields s).length →
      sscanf fmt s = ((fields s).take (numCount fmt)).map fieldValue := by
  induction fmt with
  | nil => intro s _ _; rfl
  | cons dir fmt ih =>
    intro s hnum hlen
    have hfmt1 : NumFmt fmt := fun x hx => hfmt x (List.mem_cons_of_mem _ hx)
    have hc : dir ≠ Directive.c := hfmt dir (List.mem_cons_self _ _)
    by_cases hs : dir = Directive.space
    · subst hs
      rw [sscanf_space, numCount_space] at *
      rw [← fields_dropWhile s] at hnum hlen ⊢
      exact ih hfmt1 _ hnum hlen
    · rw [numCount_num dir hs] at hnum hlen ⊢
      rw [sscanf_num dir hs hc]
      cases hf : fields s with
      | nil => rw [hf] at hlen; simp at hlen
      | cons tok rest =>
        rw [hf] at hnum hlen
        have htok : isNumericField tok = true := hnum tok (by simp)
        rcases scanNumber_field s tok rest hf (noInnerSign_of_numeric htok) with
          ⟨_, s1, hscan, hrest⟩ | ⟨hbad, _⟩
        · rw [hscan]
          simp only [List.take_succ_cons, List.map_cons, List.cons.injEq, true_and]
          rw [← hrest]
          apply ih hfmt1
          · intro t ht
            rw [hrest] at ht
            exact hnum t (by simp [ht])
          · rw [hrest]; simpa using hlen
        · rw [htok] at hbad
          exact absurd hbad (by decide)

/-- The conversions of a format never outnumber the fields of the text, when no field
has an inner sign. -/
theorem sscanf_length_le_fields (fmt : List Directive) (hfmt : NumFmt fmt) :
    ∀ s : List Char, (∀ tok ∈ fields s, noInnerSign tok = true) →
      (sscanf fmt s).length ≤ (fields s).length := by
  induction fmt with
  | nil => intro s _; exact Nat.zero_le _
  | cons dir fmt ih =>
    intro s hsign
    have hfmt1 : NumFmt fmt := fun x hx => hfmt x (List.mem_cons_of_mem _ hx)
    have hc : dir ≠ Directive.c := hfmt dir (List.mem_cons_self _ _)
    by_cases hs : dir = Directive.space
    · subst hs
      rw [sscanf_space]
      rw [← fields_dropWhile s] at hsign ⊢
      exact ih hfmt1 _ hsign
    · rw [sscanf_num dir hs hc]
      cases hf : fields s with
      | nil =>
        have hd := (fields_eq_nil_iff s).mp hf
        have : scanNumber s = none := by unfold scanNumber; rw [hd]
        rw [this]
        exact Nat.le_refl _
      | cons tok rest =>
        rw [hf] at hsign
        rcases scanNumber_field s tok rest hf (hsign tok (by simp)) with
          ⟨_, s1, hscan, hrest⟩ | ⟨_, hnone | ⟨v, s1, hscan, hstuck⟩⟩
        · rw [hscan]
          simp only [List.length_cons, Nat.add_le_add_iff_right]
          rw [← hrest]
          apply ih hfmt1
          intro t ht
          rw [hrest] at ht
          exact hsign t (by simp [ht])
        · rw [hnone]
          exact Nat.zero_le _
        · rw [hscan]
          simp only [List.length_cons]
          rw [sscanf_stuck fmt hfmt1 s1 hstuck]
          simp

/-- A field that is not a number stops the conversions at that field at the latest. -/
theorem sscanf_length_le_malformed (fmt : List Directive) (hfmt : NumFmt fmt) :
    ∀ (s : List Char) (i : Nat) (tok : List Char),
      (∀ t ∈ fields s, noInnerSign t = true) →
      (fields s).get? i = some tok → isNumericField tok = false →
      (sscanf fmt s).length ≤ i + 1 := by
  induction fmt with
  | nil => intro s i tok _ _ _; exact Nat.zero_le _
  | cons dir fmt ih =>
    intro s i tok hsign hget hbad
    have hfmt1 : NumFmt fmt := fun x hx => hfmt x (List.mem_cons_of_mem _ hx)
    have hc : dir ≠ Directive.c := hfmt dir (List.mem_cons_self _ _)
    by_cases hs : dir = Directive.space
    · subst hs
      rw [sscanf_space]
      rw [← fields_dropWhile s] at hsign hget
      exact ih hfmt1 _ i tok hsign hget hbad
    · rw [sscanf_num dir hs hc]
      cases hf : fields s with
      | nil => rw [hf] at hget; simp at hget
      | cons t rest =>
        rw [hf] at hsign hget
        rcases scanNumber_field s t rest hf (hsign t (by simp)) with
          ⟨hgood, s1, hscan, hrest⟩ | ⟨_, hnone | ⟨v, s1, hscan, hstuck⟩⟩
        · rw [hscan]
          cases i with
          | zero =>
            simp only [List.get?_cons_zero, Option.some.injEq] at hget
            rw [hget, hbad] at hgood
            exact absurd hgood (by decide)
          | succ k =>
            simp only [List.get?_cons_succ] at hget
            simp only [List.length_cons, Nat.add_le_add_iff_right]
            apply ih hfmt1 s1 k tok
            · intro u hu
              rw [hrest] at hu
              exact hsign u (by simp [hu])
            · rw [hrest]; exact hget
            · exact hbad
        · rw [hnone]
          exact Nat.zero_le _
        · rw [hscan]
          simp only [List.length_cons]
          rw [sscanf_stuck fmt hfmt1 s1 hstuck]
          simp

/-! ## The buffer after `read` and the record built from it -/

theorem readInto_eq (mem record : List Char) (hlen : record.length ≤ 511) :
    readInto mem record = record ++ NUL :: mem.drop (record.length + 1) := by
  unfold readInto
  simp only [List.take_of_length_le hlen]

theorem cstrAt_readInto (mem record : List Char) (k : Nat) (hlen : record.length ≤ 511)
    (hnul : NUL ∉ record) (hk : k ≤ record.length) :
    cstrAt (readInto mem record) k = record.drop k := by
  rw [readInto_eq _ _ hlen]
  unfold cstrAt
  rw [List.drop_append_of_le_length hk]
  rw [List.takeWhile_append_of_pos]
  · rw [List.takeWhile_cons_of_neg (by simp), List.append_nil]
  · intro a ha
    have : a ∈ record := List.mem_of_mem_drop ha
    simp only [bne_iff_ne, ne_eq]
    rintro rfl
    exact hnul this

theorem strrchr_readInto (mem front post : List Char) (hpost : ')' ∉ post)
    (hlen : (front ++ ')' :: post).length ≤ 511) (hnul : NUL ∉ front ++ ')' :: post) :
    strrchr (readInto mem (front ++ ')' :: post)) ')' = some front.length := by
  unfold strrchr
  simp only
  rw [cstrAt_readInto mem _ 0 hlen hnul (Nat.zero_le _), List.drop_zero]
  have hrev : (front ++ ')' :: post).reverse = post.reverse ++ ')' :: front.reverse := by
    simp
  have hidx : List.indexOf ')' (front ++ ')' :: post).reverse = post.length := by
    rw [hrev, List.indexOf_append_of_not_mem (by simpa using hpost), List.indexOf_cons_self]
    simp
  rw [hidx]
  have hl : (front ++ ')' :: post).length = front.length + post.length + 1 := by
    simp only [List.length_append, List.length_cons]; omega
  rw [hl, if_pos (by omega)]
  congr 1
  omega

theorem strchr_readInto (mem pre rest : List Char) (hpre : '(' ∉ pre)
    (hlen : (pre ++ '(' :: rest).length ≤ 511) (hnul : NUL ∉ pre ++ '(' :: rest) :
    strchr (readInto mem (pre ++ '(' :: rest)) '(' = some pre.length := by
  unfold strchr
  simp only
  rw [cstrAt_readInto mem _ 0 hlen hnul (Nat.zero_le _), List.drop_zero]
  have hidx : List.indexOf '(' (pre ++ '(' :: rest) = pre.length := by
    rw [List.indexOf_append_of_not_mem hpre, List.indexOf_cons_self]
    simp
  rw [hidx, if_pos (by simp)]

/-- The record built from a status record `pre ( name ) post`, where `pre` has no `(` and
`post` has no `)`: the name is `name` cut to 255 characters, and the ticks come from
scanning the C string two bytes behind the last `)`. -/
theorem parseBuffer_split (pid : Int) (mem pre name post : List Char)
    (hpre : '(' ∉ pre) (hpost : ')' ∉ post)
    (hlen : (pre ++ '(' :: name ++ ')' :: post).length ≤ 511)
    (hnul : NUL ∉ pre ++ '(' :: name ++ ')' :: post) :
    parseBuffer pid (readInto mem (pre ++ '(' :: name ++ ')' :: post)) =
      some { pid := pid, name := name.take 255,
             cpu_time := ticksOf (sscanf statFormat
               (cstrAt (readInto mem (pre ++ '(' :: name ++ ')' :: post))
                 (pre.length + name.length + 1 + 2))) } := by
  have hassoc : pre ++ '(' :: name ++ ')' :: post = pre ++ '(' :: (name ++ ')' :: post) := by
    simp
  have h1 : strrchr (readInto mem (pre ++ '(' :: name ++ ')' :: post)) ')'
      = some (pre.length + name.length + 1) := by
    rw [strrchr_readInto mem (pre ++ '(' :: name) post hpost hlen hnul]
    simp only [List.length_append, List.length_cons]
    congr 1
  have h2 : strchr (readInto mem (pre ++ '(' :: name ++ ')' :: post)) '(' = some pre.length := by
    rw [hassoc] at hlen hnul ⊢
    exact strchr_readInto mem pre _ hpre hlen hnul
  have hl : (pre ++ '(' :: name ++ ')' :: post).length
      = pre.length + name.length + post.length + 2 := by
    simp only [List.length_append, List.length_cons]; omega
  have h3 : cstrAt (readInto mem (pre ++ '(' :: name ++ ')' :: post)) (pre.length + 1)
      = name ++ ')' :: post := by
    rw [cstrAt_readInto mem _ _ hlen hnul (by rw [hl]; omega), hassoc]
    rw [List.drop_append_eq_append_drop]
    have : pre.length + 1 - pre.length = 1 := by omega
    rw [List.drop_eq_nil_of_le (by omega), this]
    rfl
  have hname : (((((pre.length + name.length + 1 : Nat) : Int) - (pre.length : Int) - 1)
      % (U64 : Int)).toNat) = name.length := by
    have hlt : (name.length : Int) < (U64 : Int) := by
      have : name.length < U64 := by
        unfold U64
        rw [hl] at hlen
        omega
      exact_mod_cast this
    have : ((pre.length + name.length + 1 : Nat) : Int) - (pre.length : Int) - 1
        = (name.length : Int) := by push_cast; ring
    rw [this, Int.emod_eq_of_lt (Int.natCast_nonneg _) hlt]
    exact Int.toNat_natCast _
  unfold parseBuffer
  rw [h1, h2]
  simp only [hname, h3]
  have htake : List.take (if name.length ≥ 256 then 255 else name.length) (name ++ ')' :: post)
      = name.take 255 := by
    split
    · next hge => rw [List.take_append_of_le_length (by omega)]
    · next hlt =>
      rw [List.take_append_of_le_length (Nat.le_refl _), List.take_length,
        List.take_of_length_le (by omega)]
  rw [htake]
  rfl

/-- The C string two bytes behind the last `)` when that `)` is followed by at least one
more byte `sep`: the text `tail` behind `sep`. -/
theorem cstrAt_tail (mem front tail : List Char) (sep : Char)
    (hlen : (front ++ ')' :: sep :: tail).length ≤ 511)
    (hnul : NUL ∉ front ++ ')' :: sep :: tail) :
    cstrAt (readInto mem (front ++ ')' :: sep :: tail)) (front.length + 2) = tail := by
  have hl : (front ++ ')' :: sep :: tail).length = front.length + tail.length + 2 := by
    simp only [List.length_append, List.length_cons]; omega
  rw [cstrAt_readInto mem _ _ hlen hnul (by rw [hl]; omega)]
  rw [List.drop_append_eq_append_drop]
  have : front.length + 2 - front.length = 2 := by omega
  rw [List.drop_eq_nil_of_le (by omega), this]
  rfl

/-- For a non-empty status record `read` returns a positive count and the record stored
is the one built from the buffer. -/
theorem processEntry_record (pid : Int) (mem record : List Char) (h : record ≠ []) :
    (processEntry pid (some record) mem).2 = parseBuffer pid (readInto mem record) := by
  unfold processEntry
  simp only
  rw [if_pos (List.length_pos.mpr h)]

/-- Every text that contains `x` splits at the first `x`. -/
theorem first_split (x : Char) : ∀ l : List Char, x ∈ l →
    ∃ pre rest, l = pre ++ x :: rest ∧ x ∉ pre := by
  intro l
  induction l with
  | nil => intro h; exact absurd h (List.not_mem_nil _)
  | cons y ys ih =>
    intro h
    by_cases hy : y = x
    · exact ⟨[], ys, by rw [hy]; rfl, List.not_mem_nil _⟩
    · have hx : x ∈ ys := by
        rcases List.mem_cons.mp h with h | h
        · exact absurd h.symm hy
        · exact h
      obtain ⟨pre, rest, hl, hpre⟩ := ih hx
      refine ⟨y :: pre, rest, by rw [hl]; rfl, ?_⟩
      intro hmem
      rcases List.mem_cons.mp hmem with h | h
      · exact hy h.symm
      · exact hpre h

/-- Every text that contains `x` splits at the last `x`. -/
theorem last_split (x : Char) (l : List Char) (h : x ∈ l) :
    ∃ front post, l = front ++ x :: post ∧ x ∉ post := by
  obtain ⟨pre, rest, hl, hpre⟩ := first_split x l.reverse (List.mem_reverse.mpr h)
  refine ⟨rest.reverse, pre.reverse, ?_, by simpa using hpre⟩
  have := congrArg List.reverse hl
  simpa using this

/-- The record built from a status record whose last `)` is followed by a byte `sep` and
the text `tail`: a record is stored, and its ticks come from scanning `tail`. -/
theorem parseBuffer_ticks (pid : Int) (mem front tail : List Char) (sep : Char)
    (hopen : '(' ∈ front) (hlast : ')' ∉ sep :: tail)
    (hlen : (front ++ ')' :: sep :: tail).length ≤ 511)
    (hnul : NUL ∉ front ++ ')' :: sep :: tail) :
    ∃ p, parseBuffer pid (readInto mem (front ++ ')' :: sep :: tail)) = some p ∧
      p.pid = pid ∧ p.cpu_time = ticksOf (sscanf statFormat tail) := by
  obtain ⟨pre, name, hfront, hpre⟩ := first_split '(' front hopen
  subst hfront
  refine ⟨_, parseBuffer_split pid mem pre name (sep :: tail) hpre hlast hlen hnul, rfl, ?_⟩
  simp only
  have := cstrAt_tail mem (pre ++ '(' :: name) tail sep hlen hnul
  simp only [List.length_append, List.length_cons] at this
  have hoff : pre.length + name.length + 1 + 2 = pre.length + (name.length + 1) + 2 := by
    omega
  rw [hoff, this]

/-! ## Claims on the enumeration loop -/

theorem scanNumber_allDigits (name : List Char) (h : allDigits name = true) :
    scanNumber name = some ((digitsValue name : Int), []) := by
  unfold allDigits at h
  simp only [Bool.and_eq_true, bne_iff_ne, ne_eq, List.all_eq_true] at h
  obtain ⟨hne, hall⟩ := h
  cases name with
  | nil => exact absurd rfl hne
  | cons ch r =>
    have hch : isdigit ch = true := hall ch (List.mem_cons_self _ _)
    have hsg := isdigit_ne_sign hch
    have hminus : ¬ ch = '-' := fun h => hsg (Or.inl h)
    unfold scanNumber
    rw [List.dropWhile_cons_of_neg (by simp [not_isspace_of_isdigit hch])]
    simp only [if_neg hsg, if_neg hminus]
    rw [List.takeWhile_eq_self_iff.mpr hall, List.dropWhile_eq_nil_iff.mpr hall]
    simp

/-- C8 (amended): an entry is a process candidate exactly when the first character of
its name is a decimal digit.  An entry whose name starts with any other character, such as
`self`, is skipped and leaves the loop state unchanged; an entry whose name is all digits
is a candidate, and its identifier is the decimal value of the name when that is below
`2^31`. -/
theorem C8_candidate_iff_first_digit (d_name : List Char) :
    ((candidate d_name).isSome = true ↔ isdigit (d_name.headD NUL) = true) ∧
    (isdigit (d_name.headD NUL) = false →
      candidate d_name = none ∧
      ∀ (readStat : Int → Option (List Char)) (rest : List (List Char)) (mem : List Char)
        (processes : List ProcessInfo),
        enumerate readStat (d_name :: rest) mem processes
          = enumerate readStat rest mem processes) ∧
    (allDigits d_name = true → (candidate d_name).isSome = true) ∧
    (allDigits d_name = true → digitsValue d_name < 2 ^ 31 →
      candidate d_name = some (digitsValue d_name : Int)) ∧
    candidate "self".toList = none := by
  have hfirst : allDigits d_name = true → isdigit (d_name.headD NUL) = true := by
    intro h
    unfold allDigits at h
    simp only [Bool.and_eq_true, bne_iff_ne, ne_eq, List.all_eq_true] at h
    cases d_name with
    | nil => exact absurd rfl h.1
    | cons ch r => exact h.2 ch (List.mem_cons_self _ _)
  refine ⟨?_, ?_, ?_, ?_, by decide⟩
  · unfold candidate
    cases hd : isdigit (d_name.headD NUL) <;> simp
  · intro hd
    have hc : candidate d_name = none := by
      unfold candidate
      rw [hd]
      rfl
    refine ⟨hc, ?_⟩
    intro readStat rest mem processes
    rw [enumerate, hc]
  · intro h
    unfold candidate
    rw [hfirst h]
    rfl
  · intro h hlt
    unfold candidate
    simp only [hfirst h, Bool.not_true, Bool.false_eq_true, if_false, Option.some.injEq]
    unfold atoi
    rw [scanNumber_allDigits d_name h]
    simp only
    have h0 : (0 : Int) ≤ (digitsValue d_name : Int) := Int.natCast_nonneg _
    have h1 : (digitsValue d_name : Int) < 2 ^ 31 := by exact_mod_cast hlt
    norm_num at h1 ⊢
    have hmin : min (digitsValue d_name : Int) 9223372036854775807 = (digitsValue d_name : Int) :=
      min_eq_left (by omega)
    have hmax : max (-9223372036854775808 : Int) (digitsValue d_name : Int)
        = (digitsValue d_name : Int) := max_eq_right (by omega)
    rw [hmin, hmax]
    omega

/-- Witness of the amended C8 at the entry `1234`. -/
theorem C8_candidate_iff_first_digit_witness :
    allDigits "1234".toList = true ∧ digitsValue "1234".toList < 2 ^ 31 ∧
      candidate "1234".toList = some 1234 :=
  ⟨by decide, by decide,
    (C8_candidate_iff_first_digit "1234".toList).2.2.2.1 (by decide) (by decide)⟩

/-- C8 as stated fails: the entry `1abc` contains non-digit characters, yet it is not
skipped: it is a candidate with identifier 1, and the status record of process 1 is read
and stored for it. -/
theorem C8_counterexample :
    allDigits "1abc".toList = false ∧
      candidate "1abc".toList = some 1 ∧
      enumerate
        (fun pid => if pid = 1 then some "1 (init) S 0 1 1 0 -1 4194560 9 8 7 6 55 66 0 0".toList
          else none)
        ["1abc".toList] [] []
        = [{ pid := 1, name := "init".toList, cpu_time := 121 }] := by
  refine ⟨by decide, by decide, by decide⟩

/-! ## Claims on the status record -/

/-- C4: for a status record of at most 511 bytes that contains a `(` followed later by a
`)`, a record is stored whose name is the text strictly between the first `(` and the last
`)`, cut to its first 255 characters. -/
theorem C4_name_between_first_and_last_paren (pid : Int) (mem record a b c : List Char)
    (hrec : record = a ++ '(' :: b ++ ')' :: c)
    (hlen : record.length ≤ 511) (hnul : NUL ∉ record) :
    ∃ p, (processEntry pid (some record) mem).2 = some p ∧
      (∃ pre name post, record = pre ++ '(' :: name ++ ')' :: post ∧
        '(' ∉ pre ∧ ')' ∉ post) ∧
      (∀ pre name post, record = pre ++ '(' :: name ++ ')' :: post →
        '(' ∉ pre → ')' ∉ post → p.name = name.take 255) := by
  have hmem : '(' ∈ record := by rw [hrec]; simp
  obtain ⟨pre, rest, hsplit, hpre⟩ := first_split '(' record hmem
  have hclose : ')' ∈ rest := by
    have h := hrec
    rw [hsplit, List.append_assoc, List.cons_append] at h
    rcases List.append_eq_append_iff.mp h with ⟨a1, ha, hr⟩ | ⟨c1, hp, hr⟩
    · cases a1 with
      | nil =>
        simp only [List.nil_append, List.cons.injEq, true_and] at hr
        rw [hr]; simp
      | cons x xs =>
        simp only [List.cons_append, List.cons.injEq] at hr
        rw [hr.2]; simp
    · cases c1 with
      | nil =>
        simp only [List.nil_append, List.cons.injEq, true_and] at hr
        rw [← hr]; simp
      | cons x xs =>
        simp only [List.cons_append, List.cons.injEq] at hr
        exfalso
        apply hpre
        rw [hp, ← hr.1]
        simp
  obtain ⟨name, post, hrest, hpost⟩ := last_split ')' rest hclose
  have hshape : record = pre ++ '(' :: name ++ ')' :: post := by
    rw [hsplit, hrest]; simp
  have hparse := parseBuffer_split pid mem pre name post hpre hpost
    (by rw [← hshape]; exact hlen) (by rw [← hshape]; exact hnul)
  rw [← hshape] at hparse
  have hne : record ≠ [] := List.ne_nil_of_mem hmem
  refine ⟨_, (processEntry_record pid mem record hne).trans hparse,
    ⟨pre, name, post, hshape, hpre, hpost⟩, ?_⟩
  intro pre1 name1 post1 hshape1 hpre1 hpost1
  have hparse1 := parseBuffer_split pid mem pre1 name1 post1 hpre1 hpost1
    (by rw [← hshape1]; exact hlen) (by rw [← hshape1]; exact hnul)
  rw [← hshape1, hparse] at hparse1
  simp only [Option.some.injEq, ProcessInfo.mk.injEq, true_and] at hparse1
  exact hparse1.1

/-- Witness of C4: the record `42 (weird)proc) name) S 1 ...` yields the name
`weird)proc) name`. -/
theorem C4_name_between_first_and_last_paren_witness :
    "42 (weird)proc) name) S 1 ...".toList
        = "42 ".toList ++ '(' :: "weird".toList ++ ')' :: "proc) name) S 1 ...".toList ∧
      "42 (weird)proc) name) S 1 ...".toList.length ≤ 511 ∧
      NUL ∉ "42 (weird)proc) name) S 1 ...".toList ∧
      ∃ p, (processEntry 42 (some "42 (weird)proc) name) S 1 ...".toList)
          "stale bytes (x) y".toList).2 = some p ∧
        p.name = "weird)proc) name".toList := by
  refine ⟨by decide, by decide, by decide, ?_⟩
  obtain ⟨p, hp, _, hall⟩ := C4_name_between_first_and_last_paren 42
    "stale bytes (x) y".toList "42 (weird)proc) name) S 1 ...".toList
    "42 ".toList "weird".toList "proc) name) S 1 ...".toList (by decide) (by decide) (by decide)
  exact ⟨p, hp, hall "42 ".toList "weird)proc) name".toList " S 1 ...".toList
    (by decide) (by decide) (by decide)⟩

/-! ## Scanning the tail of a status record -/

theorem statFormat_eq : statFormat = Directive.c :: statTail := rfl

theorem statTail_numFmt : NumFmt statTail := by
  intro dir hdir
  simp only [statTail, List.mem_cons, List.mem_singleton, List.not_mem_nil, or_false] at hdir
  rcases hdir with h | h | h | h | h | h | h | h | h | h | h | h | h | h | h | h | h | h | h |
    h | h | h | h | h <;> rw [h] <;> decide

theorem statTail_numCount : numCount statTail = 12 := by decide

/-- When the first field of `st :: rest` is the single character `st`, the other fields
are the fields of `rest`. -/
theorem fields_state (st : Char) (rest : List Char) (toks : List (List Char))
    (h : fields (st :: rest) = [st] :: toks) : fields rest = toks := by
  obtain ⟨ws, s1, hs, hws, _, htok, _, hrest⟩ := fields_cons_split _ _ _ h
  cases ws with
  | cons w ws1 =>
    simp only [List.cons_append, List.cons.injEq] at hs
    have hw := hws w (List.mem_cons_self _ _)
    rw [← hs.1, htok st (List.mem_singleton.mpr rfl)] at hw
    exact absurd hw (by decide)
  | nil =>
    simp only [List.nil_append, List.cons_append, List.cons.injEq, true_and] at hs
    rw [hs]
    exact hrest

theorem get?_map_take {α β : Type} (f : α → β) (l : List α) (n i : Nat) (hi : i < n)
    (hl : i < l.length) : ((l.take n).map f).get? i = some (f (l.get ⟨i, hl⟩)) := by
  simp [List.getElem?_take_of_lt hi, List.getElem?_eq_getElem hl]

theorem ticksOf_short (vals : List Int) (h : vals.length ≤ 11) : ticksOf vals = 0 := by
  unfold ticksOf
  rw [List.get?_eq_none.mpr (by omega), List.get?_eq_none.mpr (by omega)]
  rfl

theorem toULL_natCast (n : Nat) (h : n < U64) : toULL (n : Int) = n := by
  unfold toULL
  rw [Int.natAbs_ofNat, if_neg (by omega)]
  have : ((n : Int) % (U64 : Int)) = (n : Int) :=
    Int.emod_eq_of_lt (Int.natCast_nonneg _) (by exact_mod_cast h)
  rw [this]
  exact Int.toNat_natCast _

theorem fieldValue_unsigned (tok : List Char) (h : isUnsignedField tok = true) :
    fieldValue tok = (digitsValue tok : Int) ∧ isNumericField tok = true := by
  obtain ⟨hne, hall⟩ := (isUnsignedField_iff tok).mp h
  cases tok with
  | nil => exact absurd rfl hne
  | cons ch r =>
    have hsg := isdigit_ne_sign (hall ch (List.mem_cons_self _ _))
    have h1 : ¬ ch = '-' := fun h => hsg (Or.inl h)
    have h2 : ¬ ch = '+' := fun h => hsg (Or.inr h)
    constructor
    · unfold fieldValue
      simp only [if_neg h1, if_neg h2]
    · unfold isNumericField
      simp only [if_neg hsg]
      exact h

/-- C6 (amended): take a status record of at most 511 bytes whose last `)` is followed by
one separator byte and a tail in which the state is a single character, standing
first, and no field has a sign after its first character.  If the tail has fewer than 12
white-space separated fields (it ends before the first tick field), or one of its 2nd to
11th fields is not a decimal number, a record is still stored and its ticks are 0. -/
theorem C6_short_tail_zero_ticks (pid : Int) (mem front tail : List Char) (sep : Char)
    (hopen : '(' ∈ front) (hlast : ')' ∉ sep :: tail)
    (hlen : (front ++ ')' :: sep :: tail).length ≤ 511)
    (hnul : NUL ∉ front ++ ')' :: sep :: tail)
    (hstate : (fields tail).head? = tail.head?.map (fun st => [st]))
    (hsign : ∀ tok ∈ fields tail, noInnerSign tok = true)
    (hshort : (fields tail).length < 12 ∨
      ∃ k tok, 2 ≤ k ∧ k ≤ 11 ∧ (fields tail).get? (k - 1) = some tok ∧
        isNumericField tok = false) :
    ∃ p, (processEntry pid (some (front ++ ')' :: sep :: tail)) mem).2 = some p ∧
      p.pid = pid ∧ p.cpu_time = 0 := by
  obtain ⟨p, hp, hpid, hticks⟩ := parseBuffer_ticks pid mem front tail sep hopen hlast hlen hnul
  refine ⟨p, (processEntry_record pid mem _ (by simp)).trans hp, hpid, ?_⟩
  rw [hticks]
  apply ticksOf_short
  cases tail with
  | nil => exact Nat.zero_le _
  | cons st rest =>
    have hhead : (fields (st :: rest)).head? = some [st] := hstate
    cases hf : fields (st :: rest) with
    | nil => rw [hf] at hhead; exact Option.noConfusion hhead
    | cons t toks =>
      rw [hf] at hhead hsign hshort
      simp only [List.head?_cons, Option.some.injEq] at hhead
      subst hhead
      have hrest : fields rest = toks := fields_state st rest toks hf
      have hsign1 : ∀ tok ∈ fields rest, noInnerSign tok = true := by
        intro tok htok
        rw [hrest] at htok
        exact hsign tok (List.mem_cons_of_mem _ htok)
      rw [statFormat_eq, sscanf_c_cons, List.length_cons]
      rcases hshort with hlt | ⟨k, tok, hk2, hk11, hget, hbad⟩
      · have := sscanf_length_le_fields statTail statTail_numFmt rest hsign1
        rw [hrest] at this
        simp only [List.length_cons] at hlt
        omega
      · obtain ⟨i, rfl⟩ : ∃ i, k = i + 2 := ⟨k - 2, by omega⟩
        have hget1 : (fields rest).get? i = some tok := by
          rw [hrest]
          have : i + 2 - 1 = i + 1 := by omega
          rw [this, List.get?_cons_succ] at hget
          exact hget
        have := sscanf_length_le_malformed statTail statTail_numFmt rest i tok hsign1 hget1 hbad
        omega

/-- Witness of the amended C6: the record `7 (init) S 0 0`, read into a buffer that still
holds an older, complete record. -/
theorem C6_short_tail_zero_ticks_witness :
    ∃ p, (processEntry 7 (some ("7 (init".toList ++ ')' :: ' ' :: "S 0 0".toList))
        "1 (systemd) S 0 1 1 0 -1 4194560 100 200 3 4 55 66 77 88".toList).2 = some p ∧
      p.pid = 7 ∧ p.cpu_time = 0 :=
  C6_short_tail_zero_ticks 7 "1 (systemd) S 0 1 1 0 -1 4194560 100 200 3 4 55 66 77 88".toList
    "7 (init".toList "S 0 0".toList ' ' (by decide) (by decide) (by decide) (by decide)
    (by decide) (by decide) (Or.inl (by decide))

/-- C6 as stated fails: a tail with 12 fields has fewer than the 13 fields `state..stime`,
yet the 12th field is stored as `utime` and the ticks are 55, not 0. -/
theorem C6_counterexample :
    (fields "S 1 1 1 0 -1 4194560 100 200 3 4 55".toList).length = 12 ∧
      (processEntry 7 (some "7 (init) S 1 1 1 0 -1 4194560 100 200 3 4 55".toList) []).2
        = some { pid := 7, name := "init".toList, cpu_time := 55 } := by
  refine ⟨by decide, by decide⟩

/-- Two short records on which the ticks are not 0.  A tail whose fields are glued by
signs has 2 white-space separated fields, yet each `+0` is read by one conversion and the
ticks are 7 + 8.  A record that ends at its last `)` makes `close_paren + 2` point behind
the terminator: the bytes scanned are those of the record read before. -/
theorem short_records_with_ticks :
    (fields "S 0+0+0+0+0+0+0+0+0+0+7+8".toList).length = 2 ∧
      (processEntry 7 (some "7 (init) S 0+0+0+0+0+0+0+0+0+0+7+8".toList) []).2
        = some { pid := 7, name := "init".toList, cpu_time := 15 } ∧
      (processEntry 22 (some "22 (b)".toList)
          "1 (a) S 0 1 1 0 -1 4194560 100 200 3 4 55 66 77 88".toList).2
        = some { pid := 22, name := "b".toList, cpu_time := 121 } := by
  refine ⟨by decide, by decide, by decide⟩

theorem nthField_state (st : Char) (toks : List (List Char)) (i : Nat) (hi : i < toks.length) :
    nthField ([st] :: toks) (i + 2) = toks.get ⟨i, hi⟩ := by
  unfold nthField
  have h : i + 2 - 1 = i + 1 := by omega
  rw [h, List.get?_cons_succ, List.get?_eq_get hi]
  rfl

/-- The values assigned on a well-formed tail: the state character, then the values of
the next 12 fields. -/
theorem sscanf_wellformed (st : Char) (rest : List Char) (toks : List (List Char))
    (hf : fields (st :: rest) = [st] :: toks) (hlen12 : 12 ≤ toks.length)
    (hnum : ∀ tok ∈ toks.take 12, isNumericField tok = true) :
    sscanf statFormat (st :: rest) = (st.toNat : Int) :: (toks.take 12).map fieldValue := by
  have hrest : fields rest = toks := fields_state st rest toks hf
  have hscan := sscanf_numeric_fields statTail statTail_numFmt rest
    (by rw [hrest, statTail_numCount]; exact hnum)
    (by rw [hrest, statTail_numCount]; exact hlen12)
  rw [hrest, statTail_numCount] at hscan
  rw [statFormat_eq, sscanf_c_cons, hscan]

theorem ticksOf_wellformed (v : Int) (toks : List (List Char)) (h10 : 10 < toks.length)
    (h11 : 11 < toks.length)
    (hu : isUnsignedField (toks.get ⟨10, h10⟩) = true)
    (hs : isUnsignedField (toks.get ⟨11, h11⟩) = true)
    (hsum : digitsValue (toks.get ⟨10, h10⟩) + digitsValue (toks.get ⟨11, h11⟩) < U64) :
    ticksOf (v :: (toks.take 12).map fieldValue)
      = digitsValue (toks.get ⟨10, h10⟩) + digitsValue (toks.get ⟨11, h11⟩) := by
  have e11 : (v :: (toks.take 12).map fieldValue).get? 11
      = some (fieldValue (toks.get ⟨10, h10⟩)) := by
    rw [List.get?_cons_succ]
    exact get?_map_take fieldValue toks 12 10 (by decide) h10
  have e12 : (v :: (toks.take 12).map fieldValue).get? 12
      = some (fieldValue (toks.get ⟨11, h11⟩)) := by
    rw [List.get?_cons_succ]
    exact get?_map_take fieldValue toks 12 11 (by decide) h11
  unfold ticksOf
  rw [e11, e12]
  simp only
  rw [(fieldValue_unsigned _ hu).1, (fieldValue_unsigned _ hs).1,
    toULL_natCast _ (by omega), toULL_natCast _ (by omega)]
  unfold add64
  exact Nat.mod_eq_of_lt hsum

theorem mem_take_twelve (toks : List (List Char)) (tok : List Char)
    (h : tok ∈ toks.take 12) : ∃ (i : Nat) (hi : i < toks.length), i < 12 ∧
      toks.get ⟨i, hi⟩ = tok := by
  obtain ⟨i, hget⟩ := List.mem_iff_get?.mp h
  have hi : i < 12 := by
    by_contra hge
    rw [List.get?_eq_getElem?, List.getElem?_take_eq_none (by omega)] at hget
    exact Option.noConfusion hget
  rw [List.get?_eq_getElem?, List.getElem?_take_of_lt hi, ← List.get?_eq_getElem?] at hget
  obtain ⟨hil, hval⟩ := List.get?_eq_some.mp hget
  exact ⟨i, hil, hi, hval⟩

/-- C7 (amended): for a well-formed status record of at most 511 bytes (behind the last
`)` one separator byte, then the one-character state, then at least 12 further fields,
the 2nd to 11th decimal numbers, the 12th and 13th unsigned decimal numbers whose sum fits
64 bits), the ticks stored are the sum of the 12th and 13th fields counted from the state
field (the state field being the 1st). -/
theorem C7_ticks_are_fields_12_and_13 (pid : Int) (mem front rest : List Char)
    (sep st : Char)
    (hopen : '(' ∈ front) (hlast : ')' ∉ sep :: st :: rest)
    (hlen : (front ++ ')' :: sep :: st :: rest).length ≤ 511)
    (hnul : NUL ∉ front ++ ')' :: sep :: st :: rest)
    (hstate : nthField (fields (st :: rest)) 1 = [st])
    (hcount : 13 ≤ (fields (st :: rest)).length)
    (hnum : ∀ k, 2 ≤ k → k ≤ 11 → isNumericField (nthField (fields (st :: rest)) k) = true)
    (hu : isUnsignedField (nthField (fields (st :: rest)) 12) = true)
    (hs : isUnsignedField (nthField (fields (st :: rest)) 13) = true)
    (hsum : digitsValue (nthField (fields (st :: rest)) 12)
      + digitsValue (nthField (fields (st :: rest)) 13) < U64) :
    ∃ p, (processEntry pid (some (front ++ ')' :: sep :: st :: rest)) mem).2 = some p ∧
      p.pid = pid ∧
      p.cpu_time = digitsValue (nthField (fields (st :: rest)) 12)
        + digitsValue (nthField (fields (st :: rest)) 13) := by
  obtain ⟨p, hp, hpid, hticks⟩ :=
    parseBuffer_ticks pid mem front (st :: rest) sep hopen hlast hlen hnul
  refine ⟨p, (processEntry_record pid mem _ (by simp)).trans hp, hpid, ?_⟩
  rw [hticks]
  clear hp hpid hticks hopen hlast hlen hnul
  cases hf : fields (st :: rest) with
  | nil => rw [hf] at hcount; exact absurd hcount (by decide)
  | cons t toks =>
    rw [hf] at hstate hcount hnum hu hs hsum
    have ht : t = [st] := by
      unfold nthField at hstate
      simpa using hstate
    subst ht
    have hlen12 : 12 ≤ toks.length := by
      rw [List.length_cons] at hcount
      omega
    have h10 : 10 < toks.length := by omega
    have h11 : 11 < toks.length := by omega
    rw [nthField_state st toks 10 h10] at hu hsum ⊢
    rw [nthField_state st toks 11 h11] at hs hsum ⊢
    have hall : ∀ tok ∈ toks.take 12, isNumericField tok = true := by
      intro tok htok
      obtain ⟨i, hil, hi, hval⟩ := mem_take_twelve toks tok htok
      subst hval
      by_cases hk : i + 2 ≤ 11
      · have := hnum (i + 2) (by omega) hk
        rw [nthField_state st toks i hil] at this
        exact this
      · have hcase : i = 10 ∨ i = 11 := by omega
        rcases hcase with rfl | rfl
        · exact (fieldValue_unsigned _ hu).2
        · exact (fieldValue_unsigned _ hs).2
    rw [sscanf_wellformed st rest toks hf hlen12 hall]
    exact ticksOf_wellformed _ toks h10 h11 hu hs hsum

/-- Witness of the amended C7: a complete record of a shell process, whose 12th and 13th
fields from the state are 55 and 66. -/
theorem C7_ticks_are_fields_12_and_13_witness :
    ∃ p, (processEntry 1234 (some ("1234 (bash".toList ++ ')' :: ' ' :: 'S' ::
          " 1 1234 1234 34816 -1 4194304 100 0 0 0 55 66 77 88".toList))
        "old (x) bytes".toList).2 = some p ∧
      p.pid = 1234 ∧ p.cpu_time = 121 := by
  obtain ⟨p, hp, hpid, hticks⟩ := C7_ticks_are_fields_12_and_13 1234 "old (x) bytes".toList
    "1234 (bash".toList " 1 1234 1234 34816 -1 4194304 100 0 0 0 55 66 77 88".toList ' ' 'S'
    (by decide) (by decide) (by decide) (by decide) (by decide) (by decide)
    (by
      intro k h2 h11
      interval_cases k <;> decide)
    (by decide) (by decide) (by decide)
  exact ⟨p, hp, hpid, hticks.trans (by decide)⟩

/-- C7 as stated fails: on a complete, well-formed record whose 12th, 13th and 14th fields
from the state are 55, 66 and 77, the ticks stored are 55 + 66 = 121, not the sum
66 + 77 = 143 of the 13th and 14th fields. -/
theorem C7_counterexample :
    (fields "S 1 1234 1234 34816 -1 4194304 100 0 0 0 55 66 77 88".toList).length = 15 ∧
      (fields "S 1 1234 1234 34816 -1 4194304 100 0 0 0 55 66 77 88".toList).tail.all
        isNumericField = true ∧
      (processEntry 1234
        (some "1234 (bash) S 1 1234 1234 34816 -1 4194304 100 0 0 0 55 66 77 88".toList) []).2
        = some { pid := 1234, name := "bash".toList, cpu_time := 121 } ∧
      digitsValue (nthField
          (fields "S 1 1234 1234 34816 -1 4194304 100 0 0 0 55 66 77 88".toList) 13)
        + digitsValue (nthField
          (fields "S 1 1234 1234 34816 -1 4194304 100 0 0 0 55 66 77 88".toList) 14) = 143 := by
  refine ⟨by decide, by decide, by decide, by decide⟩

end SysMonitor
